import Mathlib

/-!
# Verification of the transcript feature-extraction engine

A shallow embedding, in Lean 4, of the turn-segmentation and linguistic
feature-extraction logic of the transcript-cleaning repository
(`backend/calculations/calculations.py`, `nonverbal_extract.py`,
`word_repeats_extract.py`, and the reference scripts
`old_file_refernces/word_count_updater.py` and `disfluency_ques.py`).

Text is modelled as `List Char` (the Python code operates on `str`
values that are plain sequences of characters).  Python regular
expressions are embedded by explicit character scans that implement the
semantics of the concrete patterns appearing in the source (leftmost,
non-greedy / lookahead behaviour is unfolded by hand for each pattern and
stated in the doc comment of the corresponding definition).  Fallible
steps return `Option`.
-/

namespace Transcript

/-- Python whitespace for `str.split` / `str.strip`
(space, tab, newline, carriage return, vertical tab, form feed). -/
def pyWS (c : Char) : Bool :=
  c = ' ' || c = '\t' || c = '\n' || c = '\r' || c = '\x0b' || c = '\x0c'

/-- A regex word character (`\w` over ASCII): letters, digits, underscore. -/
def wordChar (c : Char) : Bool :=
  c.isAlphanum || c = '_'

/-- Lowercase a character sequence (Python `str.lower` on ASCII text). -/
def lowerStr (cs : List Char) : List Char := cs.map Char.toLower

/-- Uppercase a character sequence (Python `str.upper` on ASCII text). -/
def upperStr (cs : List Char) : List Char := cs.map Char.toUpper

/-- Does `cs` begin with `pat` (exact, case-sensitive)? -/
def matchesAt (pat cs : List Char) : Bool :=
  match pat, cs with
  | [], _ => true
  | _ :: _, [] => false
  | p :: ps, c :: rest => p = c && matchesAt ps rest

/-- Python substring containment `pat in cs` (case-sensitive). -/
def containsSub (pat : List Char) : List Char → Bool
  | [] => matchesAt pat []
  | c :: rest => matchesAt pat (c :: rest) || containsSub pat rest

/-- Does `cs` begin with `pat`, comparing case-insensitively
(the semantics of `re.IGNORECASE` for literal ASCII patterns)? -/
def matchesAtCI (pat cs : List Char) : Bool :=
  match pat, cs with
  | [], _ => true
  | _ :: _, [] => false
  | p :: ps, c :: rest => p.toLower = c.toLower && matchesAtCI ps rest

/-- Index of the first suffix of `cs` satisfying `p`
(the position of the leftmost match of a regex search). -/
def findSuffix (p : List Char → Bool) : List Char → Option Nat
  | [] => if p [] then some 0 else none
  | c :: rest =>
    if p (c :: rest) then some 0 else (findSuffix p rest).map (· + 1)

/-- Case-insensitive substring containment. -/
def containsCI (pat cs : List Char) : Bool :=
  (findSuffix (matchesAtCI pat) cs).isSome

/-! ## Session-type metadata (`extract_metadata` / `extract_metadata_from_filename`)

`calculations.py` (`extract_metadata`, lines 25–46) resolves the session
type with a *case-sensitive* `'baseline' in filename` test, while
`nonverbal_extract.py` / `word_repeats_extract.py`
(`extract_metadata_from_filename`) test `'baseline' in filename.lower()`.
Both share the rest of the first-match-wins chain. -/

/-- Session type, as computed by `calculations.extract_metadata`
(note the case-sensitive `'baseline' in filename`). -/
def extract_metadata_sessionType (filename : List Char) : List Char :=
  if containsSub "EP".toList filename then "EP".toList
  else if containsSub "ER".toList filename then "ER".toList
  else if containsSub "baseline".toList filename then "baseline".toList
  else if containsSub "Final Interview".toList filename
       || containsSub "final_interview".toList filename then "final_interview".toList
  else "unknown".toList

/-- Session type, as computed by
`nonverbal_extract.extract_metadata_from_filename` and
`word_repeats_extract.extract_metadata_from_filename`
(the `baseline` test lowercases the filename first). -/
def extract_metadata_from_filename_sessionType (filename : List Char) : List Char :=
  if containsSub "EP".toList filename then "EP".toList
  else if containsSub "ER".toList filename then "ER".toList
  else if containsSub "baseline".toList (lowerStr filename) then "baseline".toList
  else if containsSub "Final Interview".toList filename
       || containsSub "final_interview".toList filename then "final_interview".toList
  else "unknown".toList

/-- The session-type resolution table exactly as the claim words it: an
ordered, first-match-wins list of (test, result) rules, with the
`baseline` test case-insensitive. -/
def claimSessionTypeRules : List ((List Char → Bool) × List Char) :=
  [ (fun f => containsSub "EP".toList f, "EP".toList)
  , (fun f => containsSub "ER".toList f, "ER".toList)
  , (fun f => containsSub "baseline".toList (lowerStr f), "baseline".toList)
  , (fun f => containsSub "Final Interview".toList f
           || containsSub "final_interview".toList f, "final_interview".toList) ]

/-- Session type per the claim: first matching rule wins, default `unknown`. -/
def claimSessionType (filename : List Char) : List Char :=
  match claimSessionTypeRules.find? (fun r => r.1 filename) with
  | some r => r.2
  | none => "unknown".toList

/-- Week label per `extract_metadata` / `extract_metadata_from_filename`:
does `(EP|ER)(\d+)` match at this position?  If so return the digit group. -/
def weekAt : List Char → Option (List Char)
  | 'E' :: c :: rest =>
    if c = 'P' ∨ c = 'R' then
      let ds := rest.takeWhile Char.isDigit
      if ds = [] then none else some ds
    else none
  | _ => none

/-- `re.search(r'(EP|ER)(\d+)', filename)`: digit group of the leftmost match. -/
def weekSearch : List Char → Option (List Char)
  | [] => none
  | c :: rest =>
    match weekAt (c :: rest) with
    | some ds => some ds
    | none => weekSearch rest

/-- `week_label = f"Week {week_match.group(2)}" if week_match else "Unknown"`. -/
def week_label (filename : List Char) : List Char :=
  match weekSearch filename with
  | some ds => "Week ".toList ++ ds
  | none => "Unknown".toList

/-- `condition = "VR" if 'EP' in filename else "Tablet"`. -/
def condition (filename : List Char) : List Char :=
  if containsSub "EP".toList filename then "VR".toList else "Tablet".toList

/-! ## Participant identification (`extract_participant_id`)

`re.search(r'vr(?:x)?\d+', text, re.IGNORECASE)`, returning the lowercased
match.  The optional `x` group is tried first (greedy); if no digit
follows the `x` the engine backtracks to the no-`x` branch, which then
requires a digit at the `x` position and necessarily fails. -/

/-- Does `vr(?:x)?\d+` (case-insensitive) match at this position?
Returns the matched characters (original casing). -/
def pidAt (cs : List Char) : Option (List Char) :=
  match cs with
  | c1 :: c2 :: rest =>
    if c1.toLower = 'v' ∧ c2.toLower = 'r' then
      match rest with
      | c3 :: rest2 =>
        if c3.toLower = 'x' then
          let ds := rest2.takeWhile Char.isDigit
          if ds = [] then none else some (c1 :: c2 :: c3 :: ds)
        else
          let ds := rest.takeWhile Char.isDigit
          if ds = [] then none else some (c1 :: c2 :: ds)
      | [] => none
    else none
  | _ => none

/-- `extract_participant_id`: leftmost `vr(?:x)?\d+` match, lowercased;
`none` when the pattern is absent. -/
def extract_participant_id : List Char → Option (List Char)
  | [] => none
  | c :: rest =>
    match pidAt (c :: rest) with
    | some m => some (lowerStr m)
    | none => extract_participant_id rest

/-! ## Python string helpers -/

/-- Python `str.strip()`: drop leading and trailing whitespace. -/
def pyStrip (cs : List Char) : List Char :=
  ((cs.dropWhile pyWS).reverse.dropWhile pyWS).reverse

/-- Accumulator-based splitter behind `splitWS`. -/
def splitWSAux : List Char → List Char → List (List Char)
  | acc, [] => if acc = [] then [] else [acc.reverse]
  | acc, c :: rest =>
    if pyWS c then
      if acc = [] then splitWSAux [] rest else acc.reverse :: splitWSAux [] rest
    else splitWSAux (c :: acc) rest

/-- Python `str.split()` (no argument): the maximal runs of
non-whitespace characters, in order. -/
def splitWS (cs : List Char) : List (List Char) := splitWSAux [] cs

/-- Token counter used to relate `splitWS` counts across edits:
`countTok b cs` counts the token starts in `cs`, where `b` records
whether the scan is currently inside a token. -/
def countTok : Bool → List Char → Nat
  | _, [] => 0
  | inTok, c :: rest =>
    if pyWS c then countTok false rest
    else (if inTok then 0 else 1) + countTok true rest

/-- Index of the first `cl` character before any newline
(the closing delimiter of a non-greedy `.`-based span: `.` does not
match `\n`, so a newline aborts the candidate match). -/
def findClose (cl : Char) : List Char → Option Nat
  | [] => none
  | c :: rest =>
    if c = cl then some 0
    else if c = '\n' then none
    else (findClose cl rest).map (· + 1)

/-- The scan behind `subDelim`: `skip > 0` means the scan is inside an
already-replaced span and still has `skip` characters to pass over
without examining them. -/
def subDelimGo (op cl : Char) (repl : List Char) (skip : Nat) : List Char → List Char
  | [] => []
  | c :: rest =>
    match skip with
    | n + 1 => subDelimGo op cl repl n rest
    | 0 =>
      if c = op then
        match findClose cl rest with
        | some k => repl ++ subDelimGo op cl repl (k + 1) rest
        | none => c :: subDelimGo op cl repl 0 rest
      else c :: subDelimGo op cl repl 0 rest

/-- `re.sub(r'‹op›.*?‹cl›', repl, text)` for one-character delimiters
`op`/`cl` (used with `[`/`]` and `(`/`)`): every leftmost non-greedy
delimited span (interior free of newlines) is replaced by `repl`, and
scanning resumes after the closing delimiter (the span's `k + 1`
remaining characters are passed over via the `skip` counter). -/
def subDelim (op cl : Char) (repl : List Char) (cs : List Char) : List Char :=
  subDelimGo op cl repl 0 cs

/-- Does `re.search(r'\[.*?\]', s)` find a match?  (Used to state the
"contains a bracketed span" side of claim C4.) -/
def hasBracketSpan : List Char → Bool
  | [] => false
  | c :: rest =>
    if c = '[' then
      match findClose ']' rest with
      | some _ => true
      | none => hasBracketSpan rest
    else hasBracketSpan rest

/-- The scan behind `collapseWS`: `inWS` records whether the previous
character was whitespace (so only the first character of each
whitespace run emits the single replacement space). -/
def collapseWSGo (inWS : Bool) : List Char → List Char
  | [] => []
  | c :: rest =>
    if pyWS c then
      if inWS then collapseWSGo true rest
      else ' ' :: collapseWSGo true rest
    else c :: collapseWSGo false rest

/-- `re.sub(r'\s+', ' ', text)`: collapse every whitespace run to one space. -/
def collapseWS (cs : List Char) : List Char := collapseWSGo false cs

/-- The scan behind `replaceSub`: `skip > 0` characters of an
already-replaced occurrence remain to be passed over. -/
def replaceGo (pat repl : List Char) (skip : Nat) : List Char → List Char
  | [] => []
  | c :: rest =>
    match skip with
    | n + 1 => replaceGo pat repl n rest
    | 0 =>
      if matchesAt pat (c :: rest) then repl ++ replaceGo pat repl (pat.length - 1) rest
      else c :: replaceGo pat repl 0 rest

/-- Python `str.replace(pat, repl)` for a nonempty `pat`: replace each
leftmost occurrence, resuming after the replaced text. -/
def replaceSub (pat repl cs : List Char) : List Char :=
  replaceGo pat repl 0 cs

/-- `' '.join(words)`. -/
def joinSpaces : List (List Char) → List Char
  | [] => []
  | [w] => w
  | w :: rest => w ++ ' ' :: joinSpaces rest

/-- `defaultdict(int)`-style update: add `v` to key `k`, keeping first
insertion order (Python 3.7+ dict semantics). -/
def upsert (m : List (List Char × Nat)) (k : List Char) (v : Nat) : List (List Char × Nat) :=
  match m with
  | [] => [(k, v)]
  | (k', v') :: rest => if k' = k then (k', v' + v) :: rest else (k', v') :: upsert rest k v

/-- Python `str.endswith(pat)`. -/
def endsWithSub (pat cs : List Char) : Bool :=
  matchesAt pat.reverse cs.reverse

/-! ## Turn segmentation (`split_turns` and the per-speaker `re.findall`)

`split_turns` (identical in `nonverbal_extract.py` and
`word_repeats_extract.py`) scans for
`({id}_c:|{id}_p:)(.*?)((?={id}_[cp]:)|$)` with `DOTALL | IGNORECASE`:
a turn starts at a speaker tag and its content extends (non-greedily) to
the next occurrence of either tag (lookahead, not consumed) or the end
of the text; `finditer` resumes at that next tag.  `analyze_transcript`
in `calculations.py` instead runs one `re.findall` per speaker:
`{tag}(.*?)(?={id}_[cp]:|$)` with the same flags. -/

/-- The caregiver speaker tag `f"{participant_id}_c:"`. -/
def cgTag (pid : List Char) : List Char := pid ++ "_c:".toList

/-- The PLWD speaker tag `f"{participant_id}_p:"`. -/
def pwTag (pid : List Char) : List Char := pid ++ "_p:".toList

/-- Does either speaker tag match (case-insensitively) at this position?
This is the alternation `{id}_c:|{id}_p:` and equally the lookahead
pattern `{id}_[cp]:`. -/
def isMarker (pid cs : List Char) : Bool :=
  matchesAtCI (cgTag pid) cs || matchesAtCI (pwTag pid) cs

/-- One speaker turn as produced by `split_turns`:
`{'speaker': 'caregiver'|'plwd', 'text': content.strip()}`. -/
structure Turn where
  speaker : List Char
  text : List Char
deriving DecidableEq

/-- The scan behind `split_turns`.  `cur` is the speaker of the turn
being collected (`none` while still in the preamble before the first
tag), `acc` the collected content in reverse, and `skip > 0` means the
scan is still passing over the characters of a consumed speaker tag (so
positions inside a consumed tag are never examined for markers, exactly
as the regex engine never looks inside a consumed match).  At a marker
the current turn is closed with its content stripped, the tag is
consumed (its remaining `pid.length + 2` characters are skipped), and a
new turn begins. -/
def splitScan (pid : List Char) (cur : Option (List Char)) (acc : List Char)
    (skip : Nat) : List Char → List Turn
  | [] =>
    match cur with
    | some sp => [⟨sp, pyStrip acc.reverse⟩]
    | none => []
  | c :: rest =>
    match skip with
    | n + 1 => splitScan pid cur acc n rest
    | 0 =>
      if isMarker pid (c :: rest) then
        let spk := if matchesAtCI (cgTag pid) (c :: rest)
          then "caregiver".toList else "plwd".toList
        match cur with
        | some sp =>
          ⟨sp, pyStrip acc.reverse⟩ :: splitScan pid (some spk) [] (pid.length + 2) rest
        | none => splitScan pid (some spk) [] (pid.length + 2) rest
      else
        match cur with
        | some sp => splitScan pid (some sp) (c :: acc) 0 rest
        | none => splitScan pid none acc 0 rest

/-- `split_turns(text, participant_id)`: all speaker turns in document
order; text before the first tag is discarded; no tag at all gives `[]`. -/
def split_turns (text pid : List Char) : List Turn :=
  splitScan pid none [] 0 text

/-- The tag the per-speaker `findall` of `analyze_transcript` scans for. -/
def speakerTag (pid : List Char) (isCg : Bool) : List Char :=
  if isCg then cgTag pid else pwTag pid

/-- The scan behind `findall_segments`.  While `collecting`, content
accumulates until a position where either tag matches (the lookahead
`{id}_[cp]:|$`); there the segment closes and, because the lookahead is
not consumed, that same position is immediately re-examined as a
possible start of this speaker's next tag — if it is not, the search
moves on one character at a time. -/
def findallScan (pid : List Char) (isCg : Bool) (collecting : Bool) (acc : List Char)
    (skip : Nat) : List Char → List (List Char)
  | [] => if collecting then [acc.reverse] else []
  | c :: rest =>
    match skip with
    | n + 1 => findallScan pid isCg collecting acc n rest
    | 0 =>
      if collecting then
        if isMarker pid (c :: rest) then
          if matchesAtCI (speakerTag pid isCg) (c :: rest) then
            acc.reverse :: findallScan pid isCg true [] (pid.length + 2) rest
          else
            acc.reverse :: findallScan pid isCg false [] 0 rest
        else findallScan pid isCg true (c :: acc) 0 rest
      else
        if matchesAtCI (speakerTag pid isCg) (c :: rest) then
          findallScan pid isCg true [] (pid.length + 2) rest
        else findallScan pid isCg false [] 0 rest

/-- `re.findall(f"{tag}(.*?)(?={id}_[cp]:|$)", text, re.DOTALL | re.IGNORECASE)`
(`analyze_transcript` in `calculations.py`, `count_words_per_speaker` in
`word_count_updater.py`): each occurrence of the given speaker's tag
starts a segment that extends to the next occurrence of either tag or
the end of the text; the scan resumes at that next tag (lookahead, not
consumed). -/
def findall_segments (pid : List Char) (isCg : Bool) (cs : List Char) : List (List Char) :=
  findallScan pid isCg false [] 0 cs

/-- A participant id of the shape the extractor produces:
lowercase `vr`, optional `x`, then one or more digits. -/
def wellFormedPid (pid : List Char) : Bool :=
  match pid with
  | 'v' :: 'r' :: c :: rest =>
    if c = 'x' then !rest.isEmpty && rest.all Char.isDigit
    else (c :: rest).all Char.isDigit
  | _ => false

/-- The speaker label `split_turns` attaches to a turn, and equally the
speaker selected by one per-speaker `findall` of `analyze_transcript`. -/
def spkName (isCg : Bool) : List Char :=
  if isCg then "caregiver".toList else "plwd".toList

/-! ## Word counting (`clean_and_count_words` and friends) -/

/-- The filled-pause set `DISFLUENCIES` shared by `calculations.py`,
`word_count_updater.py` and (as regex alternatives) `disfluency_ques.py`. -/
def DISFLUENCIES : List (List Char) :=
  ["um", "umm", "uh", "uhh", "uhhh", "er", "err", "erm", "ah", "ahh", "hm",
   "hmm", "mhm", "mm", "mmm", "eh", "ehm", "em"].map String.toList

/-- `clean_and_count_words(segment)`: remove `\[.*?\]` spans (empty
replacement), split on whitespace, drop tokens whose lowercase form is a
disfluency, count the rest. -/
def clean_and_count_words (seg : List Char) : Nat :=
  (((splitWS (subDelim '[' ']' [] seg))).filter
    (fun w => !(DISFLUENCIES.contains (lowerStr w)))).length

/-- The raw whitespace token count `len(segment.split())`. -/
def rawTokenCount (seg : List Char) : Nat := (splitWS seg).length

/-- Does the turn contain a whitespace token whose lowercase form is in
the disfluency set?  (The "contains a disfluency token" side of C4.) -/
def hasDisfluencyToken (seg : List Char) : Bool :=
  (splitWS seg).any (fun w => DISFLUENCIES.contains (lowerStr w))

/-- `count_disfluencies(segment)`: whitespace tokens whose lowercase
form is in the disfluency set. -/
def count_disfluencies (seg : List Char) : Nat :=
  ((splitWS seg).filter (fun w => DISFLUENCIES.contains (lowerStr w))).length

/-- Punctuation class of `re.split(r'[.!?]+', ...)`. -/
def sentPunct (c : Char) : Bool := c = '.' || c = '!' || c = '?'

/-- `re.split(r'[.!?]+', s)`: the pieces between maximal punctuation
runs (empty pieces kept, as `re.split` keeps them).  `inRun` records
whether the previous character was punctuation, so only the first
character of a run closes the current piece. -/
def splitPunctGo (inRun : Bool) (acc : List Char) : List Char → List (List Char)
  | [] => [acc.reverse]
  | c :: rest =>
    if sentPunct c then
      if inRun then splitPunctGo true acc rest
      else acc.reverse :: splitPunctGo true [] rest
    else splitPunctGo false (c :: acc) rest

/-- `count_sentences(segment)`: split the stripped text on `[.!?]+` and
count the pieces that are not pure whitespace; empty text counts 0. -/
def count_sentences (seg : List Char) : Nat :=
  if pyStrip seg = [] then 0
  else ((splitPunctGo false [] (pyStrip seg)).filter (fun s => !(pyStrip s).isEmpty)).length

/-- `count_questions(segment) = segment.count('?')`. -/
def count_questions (seg : List Char) : Nat :=
  (seg.filter (fun c => c = '?')).length

/-- The scan behind `count_nonverbal_cues`, with a `skip` counter for
the remaining characters of a counted span. -/
def countCuesGo (skip : Nat) : List Char → Nat
  | [] => 0
  | c :: rest =>
    match skip with
    | n + 1 => countCuesGo n rest
    | 0 =>
      if c = '[' then
        match findClose ']' rest with
        | some k => 1 + countCuesGo (k + 1) rest
        | none => countCuesGo 0 rest
      else countCuesGo 0 rest

/-- `count_nonverbal_cues(segment) = len(re.findall(r'\[(.*?)\]', segment))`
(note `.*?`: the interior may be empty here). -/
def count_nonverbal_cues (seg : List Char) : Nat := countCuesGo 0 seg

/-! ## Word-repeat detection (`word_repeats_extract.py`) -/

/-- `DISFLUENCY_MARKERS` of `word_repeats_extract.py` (the Python set
literal lists `'of'` twice; as a set it has these 14 members). -/
def DISFLUENCY_MARKERS : List (List Char) :=
  ["um", "uh", "er", "ah", "you", "know", "i", "mean", "sort", "of",
   "kind", "well", "so", "basically"].map String.toList

/-- `clean_text_remove_brackets`: replace `\[.*?\]` and `\(.*?\)` spans
by a space, then `re.sub(r'\s+', ' ', text.strip())`. -/
def clean_text_remove_brackets (text : List Char) : List Char :=
  collapseWS (pyStrip (subDelim '(' ')' [' '] (subDelim '[' ']' [' '] text)))

/-- Strip the leading and trailing non-word-character runs of a token
(`re.sub(r"^[^\w]+|[^\w]+$", '', w)`). -/
def stripTokenEdges (w : List Char) : List Char :=
  ((w.dropWhile (fun c => !wordChar c)).reverse.dropWhile (fun c => !wordChar c)).reverse

/-- `tokenize_basic`: lowercase, split on whitespace, strip non-word
edges per token, drop tokens that became empty. -/
def tokenize_basic (text : List Char) : List (List Char) :=
  ((splitWS (lowerStr text)).map stripTokenEdges).filter (fun w => !w.isEmpty)

/-- One detected immediate repeat:
`{'word', 'count', 'position', 'context'}`. -/
structure RepeatInstance where
  word : List Char
  count : Nat
  position : Nat
  context : List Char
deriving DecidableEq

/-- The highlighted context window: tokens from `max(0, i-5)` to
`min(len, j+5)`, those inside the repeated span `[i, j)` wrapped in
`**…**`, joined by spaces. -/
def highlightContext (words : List (List Char)) (i j : Nat) : List Char :=
  let start := i - 5
  let stop := min words.length (j + 5)
  joinSpaces ((List.range (stop - start)).map (fun idx =>
    let actual := start + idx
    let w := words.getD actual []
    if decide (i ≤ actual) && decide (actual < j) then
      ('*' :: '*' :: w) ++ ['*', '*']
    else w))

/-- The scan loop of `detect_immediate_repeats` from index `i`: skip
disfluency markers; at `words[i] == words[i+1]` count the run of `k`
further copies (so `count = 1 + k`), record the instance, and jump past
the run (`j = i + 1 + k`); otherwise advance one token.  The loop
condition is `i < len(words) - 1`.  The scan position `i` strictly
increases at every step, so `fuel = words.length` steps always suffice
(see `detectFromF_congr`); the first argument is this step budget. -/
def detectFromF (words : List (List Char)) : Nat → Nat → List RepeatInstance
  | 0, _ => []
  | fuel + 1, i =>
    if i + 1 < words.length then
      let w := words.getD i []
      if DISFLUENCY_MARKERS.contains w then detectFromF words fuel (i + 1)
      else if words.getD (i + 1) [] = w then
        let k := ((words.drop (i + 1)).takeWhile (fun x => x == w)).length
        let j := i + 1 + k
        { word := w, count := 1 + k, position := i,
          context := highlightContext words i j } :: detectFromF words fuel j
      else detectFromF words fuel (i + 1)
    else []

/-- `detect_immediate_repeats(words)` (the `len(words) < 2` early return
coincides with the loop guard at `i = 0`). -/
def detect_immediate_repeats (words : List (List Char)) : List RepeatInstance :=
  detectFromF words words.length 0

/-- Length of the maximal run of tokens equal to `words[i]` starting at `i`. -/
def runLen (words : List (List Char)) (i : Nat) : Nat :=
  ((words.drop i).takeWhile (fun x => x == words.getD i [])).length

/-- Is `i` the first index of a maximal run of equal tokens? -/
def isRunStart (words : List (List Char)) (i : Nat) : Bool :=
  decide (i = 0) || words.getD (i - 1) [] != words.getD i []

/-- The specification-side description of the detector: one
`RepeatInstance` for every maximal run, of length at least 2, of equal
tokens whose word is not a disfluency marker, with `count` the run
length.  Iterates `i` upward one position per fuel step. -/
def specFromF (words : List (List Char)) : Nat → Nat → List RepeatInstance
  | 0, _ => []
  | fuel + 1, i =>
    if i < words.length then
      (if isRunStart words i && !DISFLUENCY_MARKERS.contains (words.getD i [])
          && decide (2 ≤ runLen words i) then
        [{ word := words.getD i [], count := runLen words i, position := i,
           context := highlightContext words i (i + runLen words i) }]
      else []) ++ specFromF words fuel (i + 1)
    else []

/-- All instances the specification-side description predicts. -/
def specRepeats (words : List (List Char)) : List RepeatInstance :=
  specFromF words words.length 0

/-! ## Cue normalization (`normalize_nonverbal_cue` in `nonverbal_extract.py`)

The normalization table is an insertion-ordered dict of
`re.match`-anchored patterns; each `^(a|b|…).*` pattern succeeds exactly
when some alternative is a prefix of the cue text, so those rows embed
as prefix tests over the alternative list.  `\s+` runs are unfolded to
"nonempty whitespace run, then the next literal" (the literal starts
with a non-whitespace character, so the greedy/backtracking run always
ends exactly at the full whitespace run).  The `(?!.*camera)` lookahead
is a newline-bounded search for `camera` after the matched alternative. -/

/-- `re.match('^(a|b|…).*', s)`: some alternative is a prefix of `s`. -/
def prefixAny (alts : List String) (s : List Char) : Bool :=
  alts.any (fun a => matchesAt a.toList s)

/-- Search for any of `pats` at or after this position, with no newline
between the start and the match (`.*pat` lookahead/search semantics). -/
def searchNoNLAny (pats : List (List Char)) : List Char → Bool
  | [] => pats.any (fun p => matchesAt p [])
  | c :: rest =>
    pats.any (fun p => matchesAt p (c :: rest)) || (!(c = '\n') && searchNoNLAny pats rest)

/-- `^(long\s+)?pause.*`. -/
def rulePause (s : List Char) : Bool :=
  matchesAt "pause".toList s ||
  (matchesAt "long".toList s &&
    (let r := s.drop 4
     let w := r.takeWhile pyWS
     !w.isEmpty && matchesAt "pause".toList (r.drop w.length)))

/-- `^(shake|shakes|shaking)\s+(head|heads).*`. -/
def ruleShakingHead (s : List Char) : Bool :=
  ["shake", "shakes", "shaking"].any (fun a =>
    matchesAt a.toList s &&
    (let r := s.drop a.toList.length
     let w := r.takeWhile pyWS
     !w.isEmpty && prefixAny ["head", "heads"] (r.drop w.length)))

/-- `^(smile|smiles|smiling)(?!.*camera).*`. -/
def ruleSmiling (s : List Char) : Bool :=
  ["smile", "smiles", "smiling"].any (fun a =>
    matchesAt a.toList s && !(searchNoNLAny ["camera".toList] (s.drop a.toList.length)))

/-- `^(-{1,3}|–{1,3}|—{1,3})$`: one to three copies of a single dash kind. -/
def ruleInterruption (s : List Char) : Bool :=
  ["-", "--", "---", "–", "––", "–––", "—", "——", "———"].any (fun p => s == p.toList)

/-- `^(\.{3,}|…+)$`. -/
def ruleTrailingOff (s : List Char) : Bool :=
  (decide (3 ≤ s.length) && s.all (fun c => c == '.')) ||
  (!s.isEmpty && s.all (fun c => c == '…'))

/-- The `normalizations` table, in dict insertion order. -/
def cueRules : List ((List Char → Bool) × List Char) :=
  [ (fun s => matchesAt "inaudible".toList s, "inaudible".toList)
  , (rulePause, "pause".toList)
  , (prefixAny ["laugh", "laughter", "laughing", "laughs", "chuckle", "chuckles",
      "chuckling", "giggle", "giggles", "giggling"], "laughter".toList)
  , (prefixAny ["cough", "coughs", "coughing"], "coughing".toList)
  , (prefixAny ["sigh", "sighs", "sighing"], "sighing".toList)
  , (prefixAny ["nod", "nods", "nodding"], "nodding".toList)
  , (ruleShakingHead, "shaking_head".toList)
  , (prefixAny ["hum", "hums", "humming"], "humming".toList)
  , (prefixAny ["sing", "sings", "singing"], "singing".toList)
  , (prefixAny ["mumble", "mumbles", "mumbling"], "mumbling".toList)
  , (prefixAny ["yawn", "yawns", "yawning"], "yawning".toList)
  , (prefixAny ["gesture", "gestures", "gesturing"], "gesturing".toList)
  , (prefixAny ["point", "points", "pointing"], "pointing".toList)
  , (prefixAny ["clap", "claps", "clapping"], "clapping".toList)
  , (ruleSmiling, "smiling".toList)
  , (prefixAny ["dance", "dances", "dancing"], "dancing".toList)
  , (ruleInterruption, "interruption".toList)
  , (ruleTrailingOff, "trailing_off".toList) ]

/-- The remainder after the first `t` reachable without crossing a
newline (`.*t` with `.` not matching `\n`), or `none`. -/
def noNLThen (t : Char) : List Char → Option (List Char)
  | [] => none
  | c :: rest =>
    if c = t then some rest
    else if c = '\n' then none
    else noNLThen t rest

/-- `re.search(r'speaking.*\{.*\}', s)`. -/
def exSpeakingBraces : List Char → Bool
  | [] => false
  | c :: rest =>
    (matchesAt "speaking".toList (c :: rest) &&
      (match noNLThen '{' ((c :: rest).drop 8) with
       | some r => (noNLThen '}' r).isSome
       | none => false)) || exSpeakingBraces rest

/-- `re.search(r'speaking.*(spanish|portuguese|russian|mandarin|english)', s)`. -/
def exSpeakingLang : List Char → Bool
  | [] => false
  | c :: rest =>
    (matchesAt "speaking".toList (c :: rest) &&
      searchNoNLAny
        ["spanish".toList, "portuguese".toList, "russian".toList,
         "mandarin".toList, "english".toList] ((c :: rest).drop 8))
    || exSpeakingLang rest

/-- Does `vr\d+_[cp]` match at this position? -/
def vrTagAt : List Char → Bool
  | 'v' :: 'r' :: rest =>
    let ds := rest.takeWhile Char.isDigit
    !ds.isEmpty &&
      (match rest.drop ds.length with
       | '_' :: c :: _ => c = 'c' || c = 'p'
       | ['_'] => false
       | _ => false)
  | _ => false

/-- `re.search(r'vr\d+_[cp]', s)`. -/
def vrTagSearch : List Char → Bool
  | [] => false
  | c :: rest => vrTagAt (c :: rest) || vrTagSearch rest

/-- `re.search(r'.{50,}', s)`: some newline-free run of at least 50
characters (`run50 k cs` continues a current run of length `k`). -/
def run50 : Nat → List Char → Bool
  | k, [] => decide (50 ≤ k)
  | k, c :: rest =>
    if 50 ≤ k then true
    else if c = '\n' then run50 0 rest
    else run50 (k + 1) rest

/-- The `exclusion_patterns` list: does any pattern `re.search`-match? -/
def cue_exclusions (s : List Char) : Bool :=
  exSpeakingBraces s
  || exSpeakingLang s
  || containsSub "translate".toList s || containsSub "translating".toList s
  || containsSub "researcher".toList s
  || containsSub "research coordinator".toList s
  || containsSub "coordinator".toList s
  || containsSub "camera".toList s
  || containsSub "video".toList s
  || containsSub "screen".toList s
  || containsSub "recording".toList s
  || vrTagSearch s
  || endsWithSub "name".toList s
  || endsWithSub "friend".toList s
  || containsSub "day program leader".toList s
  || containsSub "if participant".toList s
  || containsSub "for example".toList s
  || containsSub "reads on".toList s || containsSub "reads sign".toList s
  || run50 0 s

/-- `re.sub(r'^\[|\]$', '', s)`: drop one leading `[` and one trailing `]`. -/
def stripBrk (s : List Char) : List Char :=
  let a := if s.head? = some '[' then s.tail else s
  if a.getLast? = some ']' then a.dropLast else a

/-- The cleaned cue text `cue_clean`: lowercase, strip, remove one
surrounding bracket pair. -/
def cue_clean_of (cue : List Char) : List Char :=
  stripBrk (pyStrip (lowerStr cue))

/-- `normalize_nonverbal_cue(cue)`: `None` for empty input; else the
first matching normalization row, else `None` if an exclusion pattern
matches, else the cleaned text itself (pass-through). -/
def normalize_nonverbal_cue (cue : List Char) : Option (List Char) :=
  if cue.isEmpty then none
  else
    match cueRules.find? (fun r => r.1 (cue_clean_of cue)) with
    | some r => some r.2
    | none =>
      if cue_exclusions (cue_clean_of cue) then none
      else some (cue_clean_of cue)

/-- The scan behind `extract_cues_raw`, with a `skip` counter for the
remaining characters of an extracted span (`r0` plus the `k` interior
characters plus the closing bracket: `k + 2`). -/
def cuesGo (skip : Nat) : List Char → List (List Char)
  | [] => []
  | c :: rest =>
    match skip with
    | n + 1 => cuesGo n rest
    | 0 =>
      if c = '[' then
        match rest with
        | [] => []
        | r0 :: rr =>
          if r0 = '\n' then cuesGo 0 (r0 :: rr)
          else
            match findClose ']' rr with
            | some k => (r0 :: rr.take k) :: cuesGo (k + 2) (r0 :: rr)
            | none => cuesGo 0 (r0 :: rr)
      else cuesGo 0 rest

/-- `re.findall(r'\[(.+?)\]', text)`: the interiors (at least one
character, newline-free) of bracketed spans, scanning resuming after
each closing bracket. -/
def extract_cues_raw (text : List Char) : List (List Char) := cuesGo 0 text

/-- `extract_cues_from_text`: normalize each raw cue, keeping the
truthy results (`if n:` drops both `None` and the empty string). -/
def extract_cues_from_text (text : List Char) : List (List Char) :=
  (extract_cues_raw text).filterMap (fun cue =>
    match normalize_nonverbal_cue cue with
    | some n => if n.isEmpty then none else some n
    | none => none)

/-! ## Filled-pause detection (`detect_disfluencies` in `disfluency_ques.py`)

`text.replace("/2019s", "'")`, then
`re.finditer(r'\b(um|umm|…|em)\b', text, re.IGNORECASE)`.  The embedding
scans positions carrying the word-character status of the previous
character: `\b` holds where that status flips; at a boundary the
alternatives are tried in pattern order, each requiring a trailing word
boundary; `finditer` resumes after a match. -/

/-- The filled-pause alternatives, in the order they appear in the pattern. -/
def filledPauseAlts : List (List Char) :=
  ["um", "umm", "uh", "uhh", "uhhh", "er", "err", "erm", "ah", "ahh", "hm",
   "hmm", "mhm", "mm", "mmm", "eh", "ehm", "em"].map String.toList

/-- Is there a word boundary after the first `t.length` characters of `cs`? -/
def boundaryAfter (t cs : List Char) : Bool :=
  match cs.drop t.length with
  | [] => true
  | c :: _ => !wordChar c

/-- Try the alternatives in order at this position; return the matched
original characters. -/
def tryAlt (cs : List Char) : Option (List Char) :=
  (filledPauseAlts.find? (fun t => matchesAtCI t cs && boundaryAfter t cs)).map
    (fun t => cs.take t.length)

/-- The `finditer` scan; `prevW` is whether the previous character was a
word character (false at the start of the text), so `\b` holds exactly
where `prevW ≠ wordChar c`.  After a match of `tok` the scan passes over
the remaining `tok.length - 1` matched characters via the `skip`
counter and resumes in word-character state (matches end in a word
character). -/
def scanFPGo (skip : Nat) (prevW : Bool) : List Char → List (List Char)
  | [] => []
  | c :: rest =>
    match skip with
    | n + 1 => scanFPGo n prevW rest
    | 0 =>
      if prevW != wordChar c then
        match tryAlt (c :: rest) with
        | some tok => tok :: scanFPGo (tok.length - 1) true rest
        | none => scanFPGo 0 (wordChar c) rest
      else scanFPGo 0 (wordChar c) rest

/-- The `finditer` scan from the start of the text. -/
def scanFP (prevW : Bool) (cs : List Char) : List (List Char) :=
  scanFPGo 0 prevW cs

/-- `detect_disfluencies(text)`: the `('filled_pause', match)` pairs, in
document order, original casing preserved, computed on the text with
`"/2019s"` replaced by an apostrophe. -/
def detect_disfluencies (text : List Char) : List (List Char × List Char) :=
  (scanFP false (replaceSub "/2019s".toList "'".toList text)).map
    (fun tok => ("filled_pause".toList, tok))

/-- Accumulator-based collector behind `wordRuns`. -/
def wordRunsAux (acc : List Char) : List Char → List (List Char)
  | [] => if acc.isEmpty then [] else [acc.reverse]
  | c :: rest =>
    if wordChar c then wordRunsAux (c :: acc) rest
    else if acc.isEmpty then wordRunsAux [] rest
    else acc.reverse :: wordRunsAux [] rest

/-- The maximal word-character runs of the text, in order. -/
def wordRuns (cs : List Char) : List (List Char) := wordRunsAux [] cs

/-- The claim-side description of the detector: split the text on word
boundaries and keep, in order and with original casing, the tokens whose
lowercase form is in the filled-pause set. -/
def claimDisfluencies (text : List Char) : List (List Char × List Char) :=
  ((wordRuns text).filter (fun r => filledPauseAlts.contains (lowerStr r))).map
    (fun r => ("filled_pause".toList, r))

/-! ## Per-file records

`process_all` in `word_repeats_extract.py` / `nonverbal_extract.py`
walks the data directory and, for each `.docx` file with non-empty text,
builds one record into `by_file[fname]`.  The per-file body of each loop
is embedded as a function of `(filename, document text)`; directory
walking and `.docx` reading are the external collaborator.  Note both
loops fall back to the id `'unknown'` when no participant pattern is
found (`extract_participant_id(text) or 'unknown'`). -/

/-- The `metadata` block shared by both batch outputs. -/
structure Metadata where
  patient_id : List Char
  session_type : List Char
  week_label : List Char
  condition : List Char
  filename : List Char
deriving DecidableEq

/-- Metadata as both `process_all` loops build it. -/
def mkMetadata (pid fname : List Char) : Metadata :=
  { patient_id := upperStr pid
  , session_type := extract_metadata_from_filename_sessionType fname
  , week_label := week_label fname
  , condition := condition fname
  , filename := fname }

/-- One output turn of the word-repeats record. -/
structure WRTurnOut where
  speaker : List Char
  text : List Char
  repeats : List RepeatInstance
deriving DecidableEq

/-- The `stats.repeats` block of the word-repeats record. -/
structure WRStats where
  caregiver_total : Nat
  plwd_total : Nat
  by_word : List (List Char × Nat)
deriving DecidableEq

/-- One `by_file` entry of `word_repeats.json`. -/
structure WRRecord where
  metadata : Metadata
  stats : WRStats
  turns : List WRTurnOut
deriving DecidableEq

/-- The repeats detected in one turn:
`detect_immediate_repeats(tokenize_basic(clean_text_remove_brackets(text)))`. -/
def turnRepeats (t : Turn) : List RepeatInstance :=
  detect_immediate_repeats (tokenize_basic (clean_text_remove_brackets t.text))

/-- `sum(r['count'] - 1 for r in reps)`: the extra occurrences of a turn. -/
def repsExtra (reps : List RepeatInstance) : Nat :=
  (reps.map (fun r => r.count - 1)).sum

/-- `caregiver_total`: extra occurrences summed over caregiver turns. -/
def wrCaregiverTotal (turns : List Turn) : Nat :=
  ((turns.filter (fun t => t.speaker == "caregiver".toList)).map
    (fun t => repsExtra (turnRepeats t))).sum

/-- `plwd_total`: extra occurrences summed over all non-caregiver turns
(the `else` branch of the speaker test). -/
def wrPlwdTotal (turns : List Turn) : Nat :=
  ((turns.filter (fun t => t.speaker != "caregiver".toList)).map
    (fun t => repsExtra (turnRepeats t))).sum

/-- `by_word[r['word']] += r['count'] - 1` over every repeat of every
turn, in iteration order. -/
def wrByWord (turns : List Turn) : List (List Char × Nat) :=
  turns.foldl (fun m t => (turnRepeats t).foldl (fun m r => upsert m r.word (r.count - 1)) m) []

/-- Stable descending insertion: `x` goes after every entry whose count
is at least `x`'s. -/
def insertByCountDesc (x : List Char × Nat) : List (List Char × Nat) → List (List Char × Nat)
  | [] => [x]
  | y :: rest => if y.2 < x.2 then x :: y :: rest else y :: insertByCountDesc x rest

/-- `dict(sorted(by_word.items(), key=lambda x: x[1], reverse=True))`:
stable sort by count, descending (insertion sort, which is stable,
matching Python's stable `sorted`). -/
def sortByCountDesc (m : List (List Char × Nat)) : List (List Char × Nat) :=
  m.foldr insertByCountDesc []

/-- The repeat-bearing output turns of the word-repeats record, before
the final `[:200]` truncation: speaker, cleaned text truncated to 500
characters, first 10 repeats. -/
def wrTurnsOut (turns : List Turn) : List WRTurnOut :=
  turns.filterMap (fun t =>
    let cleaned := clean_text_remove_brackets t.text
    let reps := detect_immediate_repeats (tokenize_basic cleaned)
    if reps.isEmpty then none
    else some { speaker := t.speaker, text := cleaned.take 500, repeats := reps.take 10 })

/-- The per-file body of `word_repeats_extract.process_all`: `none` for
non-`.docx` names and empty text (`continue`), otherwise the full record. -/
def process_wr_file (fname text : List Char) : Option WRRecord :=
  if !endsWithSub ".docx".toList fname then none
  else if text.isEmpty then none
  else
    let pid := (extract_participant_id text).getD "unknown".toList
    let turns := split_turns text pid
    some { metadata := mkMetadata pid fname
         , stats := { caregiver_total := wrCaregiverTotal turns
                    , plwd_total := wrPlwdTotal turns
                    , by_word := sortByCountDesc (wrByWord turns) }
         , turns := (wrTurnsOut turns).take 200 }

/-- One output turn of the nonverbal-cues record. -/
structure NVTurnOut where
  speaker : List Char
  text : List Char
  nonverbal_cues : List (List Char)
deriving DecidableEq

/-- One `by_file` entry of the nonverbal-cues output. -/
structure NVRecord where
  metadata : Metadata
  cue_totals : List (List Char × Nat)
  turns : List NVTurnOut
deriving DecidableEq

/-- `cue_totals[c] += 1` over every normalized cue of every turn. -/
def nvCueTotals (turns : List Turn) : List (List Char × Nat) :=
  turns.foldl (fun m t => (extract_cues_from_text t.text).foldl (fun m c => upsert m c 1) m) []

/-- The per-file body of `nonverbal_extract.process_all`: the turn list
is not truncated (only each turn's text is cut at 500 characters). -/
def process_nv_file (fname text : List Char) : Option NVRecord :=
  if !endsWithSub ".docx".toList fname then none
  else if text.isEmpty then none
  else
    let pid := (extract_participant_id text).getD "unknown".toList
    let turns := split_turns text pid
    some { metadata := mkMetadata pid fname
         , cue_totals := nvCueTotals turns
         , turns := turns.map (fun t =>
             { speaker := t.speaker, text := t.text.take 500
             , nonverbal_cues := extract_cues_from_text t.text }) }

/-- The integer metrics of `analyze_transcript` in `calculations.py`
(the three rounded floating-point averages of the Python record are
derived display values and are not modelled). -/
structure AnalyzeStats where
  patient_id : List Char
  week_label : List Char
  session_type : List Char
  condition : List Char
  filename : List Char
  caregiver_turns : Nat
  plwd_turns : Nat
  caregiver_words : Nat
  plwd_words : Nat
  caregiver_sentences : Nat
  plwd_sentences : Nat
  plwd_nonverbal : Nat
  caregiver_nonverbal : Nat
  caregiver_questions : Nat
  plwd_questions : Nat
  caregiver_disfluencies : Nat
  plwd_disfluencies : Nat
deriving DecidableEq

/-- `analyze_transcript`: `None` for empty text or when no participant
id is found (the file is excluded from the batch results); otherwise the
per-speaker metrics computed over the per-speaker `findall` segments.
The document reading of the Python function is the external
collaborator; `fname` is the basename. -/
def analyze_transcript (fname text : List Char) : Option AnalyzeStats :=
  if text.isEmpty then none
  else
    match extract_participant_id text with
    | none => none
    | some pid =>
      let cg := findall_segments pid true text
      let pw := findall_segments pid false text
      some { patient_id := pid
           , week_label := week_label fname
           , session_type := extract_metadata_sessionType fname
           , condition := condition fname
           , filename := fname
           , caregiver_turns := cg.length
           , plwd_turns := pw.length
           , caregiver_words := (cg.map clean_and_count_words).sum
           , plwd_words := (pw.map clean_and_count_words).sum
           , caregiver_sentences := (cg.map count_sentences).sum
           , plwd_sentences := (pw.map count_sentences).sum
           , plwd_nonverbal := (pw.map count_nonverbal_cues).sum
           , caregiver_nonverbal := (cg.map count_nonverbal_cues).sum
           , caregiver_questions := (cg.map count_questions).sum
           , plwd_questions := (pw.map count_questions).sum
           , caregiver_disfluencies := (cg.map count_disfluencies).sum
           , plwd_disfluencies := (pw.map count_disfluencies).sum }

/-! ## Lemmas: whitespace token counting (claim C4) -/

theorem countTok_true_le_false (cs : List Char) :
    countTok true cs ≤ countTok false cs := by
  cases cs with
  | nil => simp [countTok]
  | cons c rest => by_cases h : pyWS c <;> simp [countTok, h] <;> omega

theorem countTok_false_le_true_succ (cs : List Char) :
    countTok false cs ≤ countTok true cs + 1 := by
  induction cs with
  | nil => simp [countTok]
  | cons c rest ih => by_cases h : pyWS c <;> simp [countTok, h] <;> omega

theorem countTok_le_cons (b : Bool) (a : Char) (s : List Char) :
    countTok b s ≤ countTok b (a :: s) := by
  have h1 := countTok_true_le_false s
  have h2 := countTok_false_le_true_succ s
  by_cases h : pyWS a <;> cases b <;> simp [countTok, h] <;> omega

theorem countTok_sublist {t s : List Char} (h : List.Sublist t s) :
    ∀ b, countTok b t ≤ countTok b s := by
  induction h with
  | slnil => intro b; exact Nat.le_refl _
  | cons a h ih =>
    intro b
    exact Nat.le_trans (ih b) (countTok_le_cons b a _)
  | cons₂ a h ih =>
    intro b
    by_cases hw : pyWS a
    · have := ih false
      cases b <;> simp [countTok, hw] <;> omega
    · have := ih true
      cases b <;> simp [countTok, hw] <;> omega

theorem splitWSAux_length (cs : List Char) :
    ∀ acc : List Char,
      (splitWSAux acc cs).length = (if acc = [] then 0 else 1) + countTok (!acc.isEmpty) cs := by
  induction cs with
  | nil =>
    intro acc
    by_cases h : acc = [] <;> simp [splitWSAux, countTok, h]
  | cons c rest ih =>
    intro acc
    by_cases hw : pyWS c
    · by_cases h : acc = [] <;>
        simp [splitWSAux, countTok, h, hw, ih] <;> omega
    · by_cases h : acc = []
      · subst h
        simp [splitWSAux, countTok, hw, ih [c]] <;> omega
      · simp [splitWSAux, countTok, h, hw, ih (c :: acc)] <;> omega

theorem rawTokenCount_eq_countTok (cs : List Char) :
    rawTokenCount cs = countTok false cs := by
  simpa [rawTokenCount, splitWS] using splitWSAux_length cs []

theorem subDelimGo_empty_sublist (op cl : Char) (cs : List Char) :
    ∀ skip, List.Sublist (subDelimGo op cl [] skip cs) cs := by
  induction cs with
  | nil => intro skip; simp [subDelimGo]
  | cons c rest ih =>
    intro skip
    match skip with
    | n + 1 =>
      simp only [subDelimGo]
      exact (ih n).trans (List.sublist_cons_self c rest)
    | 0 =>
      by_cases hc : c = op
      · cases hfind : findClose cl rest with
        | some k =>
          simp only [subDelimGo, if_pos hc, hfind, List.nil_append]
          exact (ih (k + 1)).trans (List.sublist_cons_self c rest)
        | none =>
          simp only [subDelimGo, if_pos hc, hfind]
          exact (ih 0).cons₂ c
      · simp only [subDelimGo, if_neg hc]
        exact (ih 0).cons₂ c

theorem subDelim_empty_sublist (op cl : Char) (cs : List Char) :
    List.Sublist (subDelim op cl [] cs) cs :=
  subDelimGo_empty_sublist op cl cs 0

theorem subDelim_of_no_span {cs : List Char} (h : hasBracketSpan cs = false) :
    subDelim '[' ']' [] cs = cs := by
  unfold subDelim
  induction cs with
  | nil => simp [subDelimGo]
  | cons c rest ih =>
    by_cases hc : c = '['
    · subst hc
      cases hfind : findClose ']' rest with
      | some k => simp [hasBracketSpan, hfind] at h
      | none =>
        have h' : hasBracketSpan rest = false := by
          simpa [hasBracketSpan, hfind] using h
        simp [subDelimGo, hfind, ih h']
    · have h' : hasBracketSpan rest = false := by
        simpa [hasBracketSpan, hc] using h
      simp [subDelimGo, hc, ih h']

/-! ## Claim C4 -/

/-- **C4** (amended).  For every turn text the cleaned word count
(bracketed spans removed, disfluency tokens dropped) is at most the raw
whitespace token count, and the counts are equal *if* the turn contains
no bracketed span and no disfluency token.  (The "only if" direction of
the claim's "iff" is false: see `C4_counterexample`.) -/
theorem C4_word_count_bound (seg : List Char) :
    clean_and_count_words seg ≤ rawTokenCount seg ∧
    (hasBracketSpan seg = false → hasDisfluencyToken seg = false →
      clean_and_count_words seg = rawTokenCount seg) := by
  constructor
  · have h1 : clean_and_count_words seg ≤ rawTokenCount (subDelim '[' ']' [] seg) :=
      List.length_filter_le _ _
    have h2 : rawTokenCount (subDelim '[' ']' [] seg) ≤ rawTokenCount seg := by
      rw [rawTokenCount_eq_countTok, rawTokenCount_eq_countTok]
      exact countTok_sublist (subDelim_empty_sublist _ _ _) false
    exact Nat.le_trans h1 h2
  · intro hb hd
    unfold clean_and_count_words rawTokenCount
    rw [subDelim_of_no_span hb]
    congr 1
    apply List.filter_eq_self.mpr
    intro w hw
    unfold hasDisfluencyToken at hd
    simp only [List.any_eq_false] at hd
    simpa using hd w hw

/-- **C4** counterexample: for the turn `"a[]b"` the cleaned and raw
counts are both 1, although the turn contains the bracketed span `[]`
(and no disfluency token) — so equality does *not* imply the absence of
a bracketed span, refuting the "iff". -/
theorem C4_counterexample :
    clean_and_count_words "a[]b".toList = rawTokenCount "a[]b".toList ∧
    hasBracketSpan "a[]b".toList = true ∧
    hasDisfluencyToken "a[]b".toList = false := by decide

/-- Witness for `C4_word_count_bound` at the turn `"hi there"`
(no bracketed span, no disfluency: both counts are 2). -/
theorem C4_word_count_bound_witness :
    clean_and_count_words "hi there".toList ≤ rawTokenCount "hi there".toList ∧
    clean_and_count_words "hi there".toList = rawTokenCount "hi there".toList :=
  ⟨(C4_word_count_bound "hi there".toList).1,
   (C4_word_count_bound "hi there".toList).2 (by decide) (by decide)⟩

/-! ## Claim C1 -/

/-- **C1** counterexample: on the PLWD turn text `"I I am fine [laughs]"`
the word-repeat pipeline of `word_repeats_extract.py` reports *no*
`RepeatInstance` with word `"i"` and repeat count 2 (indeed none at
all), contrary to the claim. -/
theorem C1_counterexample :
    ¬ ∃ r ∈ detect_immediate_repeats
        (tokenize_basic (clean_text_remove_brackets "I I am fine [laughs]".toList)),
        r.word = "i".toList ∧ r.count = 2 := by decide

/-- **C1** (amended).  For the PLWD turn text `"I I am fine [laughs]"`
the `WordRepeatDetector` reports no `RepeatInstance`: the tokens are
`i, i, am, fine`, and `"i"` is in the detector's extended disfluency
marker set, so the repeated `"i"` is skipped rather than counted. -/
theorem C1_skipped_marker_no_repeat :
    detect_immediate_repeats
        (tokenize_basic (clean_text_remove_brackets "I I am fine [laughs]".toList)) = [] ∧
    "i".toList ∈ DISFLUENCY_MARKERS ∧
    tokenize_basic (clean_text_remove_brackets "I I am fine [laughs]".toList) =
      ["i".toList, "i".toList, "am".toList, "fine".toList] := by decide

/-! ## Claim C2 -/

/-- **C2** (amended).  When the document text contains no participant-id
pattern, `analyze_transcript` (`calculations.py`) excludes the file: it
returns `None`, so the record never reaches the batch results.  (The
`process_all` batch loops of `nonverbal_extract.py` and
`word_repeats_extract.py` do *not* exclude such files: they fall back to
the id `'unknown'` and still emit a record — see `C2_counterexample`.) -/
theorem C2_analyze_excludes (fname text : List Char)
    (h : extract_participant_id text = none) :
    analyze_transcript fname text = none := by
  unfold analyze_transcript
  by_cases he : text.isEmpty
  · simp [he]
  · simp [he, h]

/-- Witness for `C2_analyze_excludes` on the text `"hello world"`. -/
theorem C2_analyze_excludes_witness :
    extract_participant_id "hello world".toList = none ∧
    analyze_transcript "f.docx".toList "hello world".toList = none :=
  ⟨by decide, C2_analyze_excludes "f.docx".toList "hello world".toList (by decide)⟩

/-- **C2** counterexample: a `.docx` file whose text `"hello world"`
contains no participant-id pattern is *not* excluded by the nonverbal
and word-repeats batch processors: both emit a record (under patient id
`"UNKNOWN"`), so the record does appear in the aggregate `by_file`
output. -/
theorem C2_counterexample :
    extract_participant_id "hello world".toList = none ∧
    process_nv_file "f.docx".toList "hello world".toList ≠ none ∧
    (process_nv_file "f.docx".toList "hello world".toList).map
      (fun r => r.metadata.patient_id) = some "UNKNOWN".toList ∧
    process_wr_file "f.docx".toList "hello world".toList ≠ none := by decide

/-! ## Claim C5 -/

/-- **C5** counterexample: for the filename `"VR1_Baseline.docx"`,
`extract_metadata` of `calculations.py` yields session type `"unknown"`
— its `'baseline' in filename` test is case-*sensitive* — while the
claim's resolution order (and `extract_metadata_from_filename`) yields
`"baseline"`. -/
theorem C5_counterexample :
    extract_metadata_sessionType "VR1_Baseline.docx".toList = "unknown".toList ∧
    claimSessionType "VR1_Baseline.docx".toList = "baseline".toList ∧
    extract_metadata_from_filename_sessionType "VR1_Baseline.docx".toList =
      "baseline".toList := by decide

/-- **C5** (amended).  The session type computed by
`extract_metadata_from_filename` (`nonverbal_extract.py`,
`word_repeats_extract.py`) follows exactly the claimed first-match-wins
order — `EP`, then `ER`, then case-insensitive `baseline`, then
`Final Interview`/`final_interview`, else `unknown`; in
`calculations.extract_metadata` the `baseline` test is case-sensitive
instead. -/
theorem C5_sessionType_first_match (filename : List Char) :
    extract_metadata_from_filename_sessionType filename = claimSessionType filename := by
  unfold extract_metadata_from_filename_sessionType claimSessionType claimSessionTypeRules
  simp only [List.find?]
  cases h1 : containsSub "EP".toList filename
  case true => simp only [h1, if_true]
  case false =>
    simp only [h1, Bool.false_eq_true, if_false]
    cases h2 : containsSub "ER".toList filename
    case true => simp only [h2, if_true]
    case false =>
      simp only [h2, Bool.false_eq_true, if_false]
      cases h3 : containsSub "baseline".toList (lowerStr filename)
      case true => simp only [h3, if_true]
      case false =>
        simp only [h3, Bool.false_eq_true, if_false]
        cases h4 : (containsSub "Final Interview".toList filename
            || containsSub "final_interview".toList filename)
        case true => simp only [h4, if_true]
        case false => simp [h4]

/-! ## Counterexamples for claims C6, C7, C10 -/

/-- **C6** counterexample: `normalize` is not idempotent on the raw cue
string `"[ hello"`: the first pass strips the bracket and passes
`" hello"` through, the second pass strips the now-exposed leading space
and returns `"hello"`. -/
theorem C6_counterexample :
    normalize_nonverbal_cue "[ hello".toList = some " hello".toList ∧
    normalize_nonverbal_cue " hello".toList = some "hello".toList ∧
    (normalize_nonverbal_cue "[ hello".toList).bind normalize_nonverbal_cue ≠
      normalize_nonverbal_cue "[ hello".toList := by decide

/-- **C7** counterexample: on the turn text `"x/2019ser"` the detector
records one `('filled_pause', 'er')` instance, although the turn text
itself has no word-boundary-delimited filled-pause occurrence — the
`"/2019s" → "'"` replacement performed first creates the boundary. -/
theorem C7_counterexample :
    detect_disfluencies "x/2019ser".toList =
      [("filled_pause".toList, "er".toList)] ∧
    claimDisfluencies "x/2019ser".toList = [] := by decide

/-! ## Claim C8 -/

theorem findSuffix_none {p : List Char → Bool} :
    ∀ cs, findSuffix p cs = none → ∀ t, t <:+ cs → p t = false := by
  intro cs
  induction cs with
  | nil =>
    intro h t ht
    rw [List.suffix_nil] at ht
    subst ht
    by_cases hp : p []
    · simp [findSuffix, hp] at h
    · simpa using hp
  | cons c rest ih =>
    intro h t ht
    have h1 : p (c :: rest) = false := by
      by_cases hp : p (c :: rest)
      · simp [findSuffix, hp] at h
      · simpa using hp
    have h2 : findSuffix p rest = none := by
      cases hfs : findSuffix p rest with
      | none => rfl
      | some k => simp [findSuffix, h1, hfs] at h
    rcases List.suffix_cons_iff.mp ht with he | hs
    · rw [he]; exact h1
    · exact ih h2 t hs

theorem containsCI_false_suffix {pat cs : List Char} (h : containsCI pat cs = false) :
    ∀ t, t <:+ cs → matchesAtCI pat t = false := by
  have hn : findSuffix (matchesAtCI pat) cs = none := by
    unfold containsCI at h
    cases hfs : findSuffix (matchesAtCI pat) cs with
    | none => rfl
    | some k => rw [hfs] at h; simp at h
  exact findSuffix_none cs hn

theorem splitScan_no_marker (pid : List Char) :
    ∀ cs, (∀ t, t <:+ cs → isMarker pid t = false) → splitScan pid none [] 0 cs = [] := by
  intro cs
  induction cs with
  | nil => intro _; rfl
  | cons c rest ih =>
    intro h
    have hm : isMarker pid (c :: rest) = false := h (c :: rest) List.suffix_rfl
    simp only [splitScan, hm, Bool.false_eq_true, if_false]
    exact ih (fun t ht => h t (ht.trans (List.suffix_cons c rest)))

/-- **C8**.  If the document text contains no occurrence of either
speaker marker `{id}_c:` / `{id}_p:` (case-insensitively), then
`split_turns` returns the empty turn sequence rather than signaling an
error; and the per-file body of the nonverbal batch loop still emits a
record, with zero turns and zero-valued stats. -/
theorem C8_zero_turns_graceful :
    (∀ text pid, containsCI (cgTag pid) text = false →
      containsCI (pwTag pid) text = false → split_turns text pid = []) ∧
    (∀ fname text, endsWithSub ".docx".toList fname = true → text ≠ [] →
      containsCI (cgTag ((extract_participant_id text).getD "unknown".toList)) text = false →
      containsCI (pwTag ((extract_participant_id text).getD "unknown".toList)) text = false →
      process_nv_file fname text =
        some { metadata := mkMetadata ((extract_participant_id text).getD "unknown".toList) fname
             , cue_totals := []
             , turns := [] }) := by
  have key : ∀ text pid, containsCI (cgTag pid) text = false →
      containsCI (pwTag pid) text = false → split_turns text pid = [] := by
    intro text pid hc hp
    apply splitScan_no_marker
    intro t ht
    unfold isMarker
    rw [containsCI_false_suffix hc t ht, containsCI_false_suffix hp t ht]
    rfl
  refine ⟨key, ?_⟩
  intro fname text hdocx hne hc hp
  unfold process_nv_file
  rw [hdocx]
  have hie : text.isEmpty = false := by
    cases text with
    | nil => exact absurd rfl hne
    | cons a l => rfl
  rw [hie]
  simp only [Bool.not_false, Bool.not_true, Bool.false_eq_true, if_false, if_true]
  rw [key text _ hc hp]
  rfl

/-- Witness for `C8_zero_turns_graceful`: the text `"hello"` (no
participant pattern, so the id used is `unknown`; neither `unknown_c:`
nor `unknown_p:` occurs). -/
theorem C8_zero_turns_graceful_witness :
    split_turns "hello".toList "vr9".toList = [] ∧
    process_nv_file "f.docx".toList "hello".toList =
      some { metadata := mkMetadata ((extract_participant_id "hello".toList).getD
               "unknown".toList) "f.docx".toList
           , cue_totals := []
           , turns := [] } :=
  ⟨C8_zero_turns_graceful.1 "hello".toList "vr9".toList (by decide) (by decide),
   C8_zero_turns_graceful.2 "f.docx".toList "hello".toList (by decide)
     (by decide) (by decide) (by decide)⟩

/-! ## Claim C9 -/

theorem take_ne_nil_of_ne_nil {α : Type} {l : List α} (h : l ≠ []) (n : Nat) :
    l.take (n + 1) ≠ [] := by
  cases l with
  | nil => exact absurd rfl h
  | cons a t => simp

/-- **C9**.  Every word-repeats file record truncates: at most 200
(repeat-bearing) output turns, each with at most the first 500
characters of the cleaned turn text and at most the first 10 repeat
instances, while the stats totals are computed from the full
untruncated turn data; every nonverbal file record truncates each output
turn's text to at most 500 characters. -/
theorem C9_truncation_bounds :
    (∀ fname text rec, process_wr_file fname text = some rec →
      rec.turns.length ≤ 200 ∧
      (∀ t ∈ rec.turns, t.text.length ≤ 500 ∧ t.repeats.length ≤ 10 ∧ t.repeats ≠ []) ∧
      rec.stats.caregiver_total =
        wrCaregiverTotal (split_turns text ((extract_participant_id text).getD "unknown".toList)) ∧
      rec.stats.plwd_total =
        wrPlwdTotal (split_turns text ((extract_participant_id text).getD "unknown".toList))) ∧
    (∀ fname text rec, process_nv_file fname text = some rec →
      ∀ t ∈ rec.turns, t.text.length ≤ 500) := by
  constructor
  · intro fname text rec h
    unfold process_wr_file at h
    by_cases hd : endsWithSub ".docx".toList fname
    · rw [hd] at h
      by_cases he : text.isEmpty
      · simp [he] at h
      · rw [Bool.eq_false_iff.mpr he] at h
        simp only [Bool.not_false, Bool.not_true, Bool.false_eq_true, if_false, if_true] at h
        have hrec := (Option.some.injEq _ _).mp h.symm
        subst hrec
        refine ⟨List.length_take_le _ _, ?_, rfl, rfl⟩
        intro t ht
        have ht' := List.mem_of_mem_take ht
        unfold wrTurnsOut at ht'
        rw [List.mem_filterMap] at ht'
        obtain ⟨t0, _, hf⟩ := ht'
        by_cases hr : (detect_immediate_repeats
            (tokenize_basic (clean_text_remove_brackets t0.text))).isEmpty
        · simp only [hr, if_true] at hf
          exact absurd hf (by simp)
        · simp only [hr, Bool.false_eq_true, if_false, Option.some.injEq] at hf
          subst hf
          refine ⟨List.length_take_le _ _, List.length_take_le _ _, ?_⟩
          apply take_ne_nil_of_ne_nil
          intro hnil
          rw [hnil] at hr
          simp at hr
    · rw [Bool.eq_false_iff.mpr hd] at h
      simp at h
  · intro fname text rec h
    unfold process_nv_file at h
    by_cases hd : endsWithSub ".docx".toList fname
    · rw [hd] at h
      by_cases he : text.isEmpty
      · simp [he] at h
      · rw [Bool.eq_false_iff.mpr he] at h
        simp only [Bool.not_false, Bool.not_true, Bool.false_eq_true, if_false, if_true] at h
        have hrec := (Option.some.injEq _ _).mp h.symm
        subst hrec
        intro t ht
        rw [List.mem_map] at ht
        obtain ⟨t0, _, hf⟩ := ht
        subst hf
        exact List.length_take_le _ _
    · rw [Bool.eq_false_iff.mpr hd] at h
      simp at h

/-- Witness for `C9_truncation_bounds` at the file `("a.docx", "vr1")`
(participant id found, no speaker tags, hence an empty turn list and
zero totals). -/
theorem C9_truncation_bounds_witness :
    ({ metadata := mkMetadata "vr1".toList "a.docx".toList
     , stats := { caregiver_total := 0, plwd_total := 0, by_word := [] }
     , turns := [] } : WRRecord).turns.length ≤ 200 ∧
    ({ metadata := mkMetadata "vr1".toList "a.docx".toList
     , stats := { caregiver_total := 0, plwd_total := 0, by_word := [] }
     , turns := [] } : WRRecord).stats.caregiver_total =
      wrCaregiverTotal (split_turns "vr1".toList
        ((extract_participant_id "vr1".toList).getD "unknown".toList)) :=
  ⟨(C9_truncation_bounds.1 "a.docx".toList "vr1".toList _ (by decide)).1,
   (C9_truncation_bounds.1 "a.docx".toList "vr1".toList _ (by decide)).2.2.1⟩

/-! ## Claim C3: the repeat-detector characterization

`detectFromF` (the faithful scan loop) agrees with `specFromF` (one
instance per maximal run, of length at least 2, of a non-marker token),
by induction on the step budget, under the invariant that the scan
position is never strictly inside a run. -/

theorem detectF_stop (words : List (List Char)) (fuel i : Nat)
    (h : words.length ≤ i + 1) : detectFromF words fuel i = [] := by
  cases fuel with
  | zero => rfl
  | succ f => simp [detectFromF, Nat.not_lt.mpr h]

theorem specF_stop (words : List (List Char)) (fuel i : Nat)
    (h : words.length ≤ i) : specFromF words fuel i = [] := by
  cases fuel with
  | zero => rfl
  | succ f => simp [specFromF, Nat.not_lt.mpr h]

theorem specF_congr (words : List (List Char)) :
    ∀ f f' p, words.length ≤ f + p → words.length ≤ f' + p →
      specFromF words f p = specFromF words f' p := by
  intro f
  induction f with
  | zero =>
    intro f' p h h'
    rw [specF_stop words 0 p (by omega), specF_stop words f' p (by omega)]
  | succ f ih =>
    intro f' p h h'
    cases f' with
    | zero =>
      rw [specF_stop words (f + 1) p (by omega), specF_stop words 0 p (by omega)]
    | succ f'' =>
      by_cases hp : p < words.length
      · simp only [specFromF, if_pos hp]
        congr 1
        exact ih f'' (p + 1) (by omega) (by omega)
      · simp only [specFromF, if_neg hp]

theorem getD_drop {α : Type} (l : List α) (i j : Nat) (d : α) :
    (l.drop i).getD j d = l.getD (i + j) d := by
  simp [List.getD_eq_getElem?_getD, List.getElem?_drop]

theorem getD_cons_drop (words : List (List Char)) (i : Nat) (h : i < words.length) :
    words.drop i = words.getD i [] :: words.drop (i + 1) := by
  rw [List.drop_eq_getElem_cons h, List.getD_eq_getElem _ _ h]

theorem takeWhile_getD_true {α : Type} (p : α → Bool) (d : α) :
    ∀ (ls : List α) (q : Nat), q < (ls.takeWhile p).length → p (ls.getD q d) = true := by
  intro ls
  induction ls with
  | nil => intro q h; simp [List.takeWhile] at h
  | cons a tl ih =>
    intro q h
    cases hp : p a with
    | false => simp [List.takeWhile, hp] at h
    | true =>
      cases q with
      | zero => simpa using hp
      | succ q' =>
        simp only [List.takeWhile, hp] at h
        simp only [List.length_cons, Nat.succ_lt_succ_iff] at h
        simpa using ih q' h

theorem takeWhile_getD_false {α : Type} (p : α → Bool) (d : α) :
    ∀ (ls : List α), (ls.takeWhile p).length < ls.length →
      p (ls.getD (ls.takeWhile p).length d) = false := by
  intro ls
  induction ls with
  | nil => intro h; simp at h
  | cons a tl ih =>
    intro h
    cases hp : p a with
    | false => simpa [List.takeWhile, hp] using hp
    | true =>
      simp only [List.takeWhile, hp, List.length_cons, Nat.succ_lt_succ_iff] at h ⊢
      simpa using ih h

theorem runLen_pos (words : List (List Char)) (i : Nat) (h : i < words.length) :
    runLen words i =
      1 + ((words.drop (i + 1)).takeWhile (fun x => x == words.getD i [])).length := by
  unfold runLen
  rw [getD_cons_drop words i h]
  simp [List.takeWhile]
  omega

theorem run_all_eq (words : List (List Char)) (i : Nat) :
    ∀ q, i ≤ q → q < i + runLen words i → words.getD q [] = words.getD i [] := by
  intro q hq1 hq2
  have h := takeWhile_getD_true (fun x => x == words.getD i []) [] (words.drop i) (q - i)
    (by unfold runLen at hq2; omega)
  rw [getD_drop] at h
  have he : i + (q - i) = q := by omega
  rw [he] at h
  simpa using h

theorem run_stop_ne (words : List (List Char)) (i : Nat)
    (h : i + runLen words i < words.length) :
    words.getD (i + runLen words i) [] ≠ words.getD i [] := by
  have hlt : runLen words i < (words.drop i).length := by
    simp only [List.length_drop]
    omega
  have hf := takeWhile_getD_false (fun x => x == words.getD i []) [] (words.drop i) hlt
  rw [getD_drop] at hf
  unfold runLen
  simpa using hf

theorem specF_skip (words : List (List Char)) :
    ∀ (m f p : Nat), (∀ q, p ≤ q → q < p + m → isRunStart words q = false) →
      specFromF words (f + m) p = specFromF words f (p + m) := by
  intro m
  induction m with
  | zero => intro f p _; rfl
  | succ m ih =>
    intro f p hmid
    by_cases hp : p < words.length
    · have hrs : isRunStart words p = false := hmid p (Nat.le_refl p) (by omega)
      have hf : f + (m + 1) = (f + m) + 1 := by omega
      rw [hf]
      simp only [specFromF, if_pos hp, hrs, Bool.false_and, Bool.false_eq_true, if_false,
        List.nil_append]
      have hih := ih f (p + 1) (fun q h1 h2 => hmid q (by omega) (by omega))
      rw [hih]
      congr 1
      omega
    · rw [specF_stop words _ p (Nat.not_lt.mp hp),
        specF_stop words f (p + (m + 1)) (by omega)]

theorem detectF_eq_specF (words : List (List Char)) :
    ∀ fuel i, words.length ≤ fuel + i →
      (i = 0 ∨ words.getD (i - 1) [] ≠ words.getD i [] ∨
        DISFLUENCY_MARKERS.contains (words.getD i []) = true) →
      detectFromF words fuel i = specFromF words fuel i := by
  intro fuel
  induction fuel with
  | zero =>
    intro i hlen _
    rw [detectF_stop words 0 i (by omega), specF_stop words 0 i (by omega)]
  | succ fuel ih =>
    intro i hlen hinv
    by_cases hguard : i + 1 < words.length
    · have hiw : i < words.length := by omega
      simp only [detectFromF, if_pos hguard]
      by_cases hmk : DISFLUENCY_MARKERS.contains (words.getD i []) = true
      · -- marker: skipped by the detector, rejected by the spec condition
        simp only [hmk, if_true]
        have hinv' : i + 1 = 0 ∨ words.getD (i + 1 - 1) [] ≠ words.getD (i + 1) [] ∨
            DISFLUENCY_MARKERS.contains (words.getD (i + 1) []) = true := by
          simp only [Nat.add_sub_cancel]
          by_cases he : words.getD i [] = words.getD (i + 1) []
          · exact Or.inr (Or.inr (he ▸ hmk))
          · exact Or.inr (Or.inl he)
        rw [ih (i + 1) (by omega) hinv']
        simp only [specFromF, if_pos hiw, hmk]
        simp
      · rw [if_neg hmk]
        have hrs : isRunStart words i = true := by
          unfold isRunStart
          rcases hinv with h0 | hne | hm
          · simp [h0]
          · simp only [Bool.or_eq_true, decide_eq_true_eq, bne_iff_ne]
            exact Or.inr hne
          · exact absurd hm hmk
        by_cases heq : words.getD (i + 1) [] = words.getD i []
        · -- a run starts at i
          rw [if_pos heq]
          have hrl : runLen words i =
              1 + ((words.drop (i + 1)).takeWhile (fun x => x == words.getD i [])).length :=
            runLen_pos words i hiw
          set k := ((words.drop (i + 1)).takeWhile (fun x => x == words.getD i [])).length
            with hk
          have hkpos : 1 ≤ k := by
            rw [hk, getD_cons_drop words (i + 1) hguard, heq]
            simp [List.takeWhile]
          have hjlen : i + 1 + k ≤ words.length := by
            have hle : k ≤ (words.drop (i + 1)).length := by
              rw [hk]
              exact (List.takeWhile_sublist _).length_le
            simp only [List.length_drop] at hle
            omega
          have hkfuel : k ≤ fuel := by omega
          simp only [specFromF, if_pos hiw, hrs, hmk]
          have h2rl : decide (2 ≤ runLen words i) = true := by
            rw [hrl]
            simp only [decide_eq_true_eq]
            omega
          simp only [Bool.not_false, Bool.true_and, Bool.and_true, h2rl, if_pos rfl,
        List.singleton_append, if_true]
          have hmid : ∀ q, i + 1 ≤ q → q < i + 1 + k → isRunStart words q = false := by
            intro q h1 h2
            have hq : words.getD q [] = words.getD i [] :=
              run_all_eq words i q (by omega) (by rw [hrl]; omega)
            have hq1 : words.getD (q - 1) [] = words.getD i [] :=
              run_all_eq words i (q - 1) (by omega) (by rw [hrl]; omega)
            unfold isRunStart
            simp only [Bool.or_eq_false_iff, decide_eq_false_iff_not, bne_eq_false_iff_eq]
            exact ⟨by omega, by rw [hq, hq1]⟩
          have hskip : specFromF words fuel (i + 1) = specFromF words (fuel - k) (i + 1 + k) := by
            conv_lhs => rw [show fuel = (fuel - k) + k by omega]
            exact specF_skip words k (fuel - k) (i + 1) hmid
          simp only [List.cons.injEq]
          refine ⟨?_, ?_⟩
          · -- the emitted instances agree
            rw [hrl]
            have hargs : i + 1 + k = i + (1 + k) := by omega
            rw [hargs]
          · -- the tails agree
            rw [hskip]
            by_cases hjl : i + 1 + k < words.length
            · rw [specF_congr words (fuel - k) fuel (i + 1 + k) (by omega) (by omega)]
              have hinvj : i + 1 + k = 0 ∨
                  words.getD (i + 1 + k - 1) [] ≠ words.getD (i + 1 + k) [] ∨
                  DISFLUENCY_MARKERS.contains (words.getD (i + 1 + k) []) = true := by
                right; left
                have hprev : words.getD (i + 1 + k - 1) [] = words.getD i [] := by
                  apply run_all_eq words i _ (by omega)
                  rw [hrl]; omega
                have hstop : words.getD (i + 1 + k) [] ≠ words.getD i [] := by
                  have hji : i + 1 + k = i + runLen words i := by rw [hrl]; omega
                  rw [hji]
                  exact run_stop_ne words i (by rw [hrl]; omega)
                rw [hprev]
                exact fun hh => hstop hh.symm
              exact ih (i + 1 + k) (by omega) hinvj
            · rw [specF_stop words (fuel - k) (i + 1 + k) (by omega),
                detectF_stop words fuel (i + 1 + k) (by omega)]
        · -- no repeat at i: both sides advance one position
          rw [if_neg heq]
          have hrl1 : runLen words i = 1 := by
            rw [runLen_pos words i hiw, getD_cons_drop words (i + 1) hguard]
            have hne : (words[i + 1]?.getD [] == words[i]?.getD []) = false := by
              simpa [List.getD_eq_getElem?_getD] using beq_eq_false_iff_ne.mpr heq
            simp [List.takeWhile, hne]
          have hinv' : i + 1 = 0 ∨ words.getD (i + 1 - 1) [] ≠ words.getD (i + 1) [] ∨
              DISFLUENCY_MARKERS.contains (words.getD (i + 1) []) = true := by
            simp only [Nat.add_sub_cancel]
            exact Or.inr (Or.inl (fun hh => heq (hh.symm)))
          rw [ih (i + 1) (by omega) hinv']
          simp only [specFromF, if_pos hiw, hrl1]
          simp
    · -- the loop guard fails: the detector stops; the spec finds no ≥2-run
      simp only [detectFromF, if_neg hguard]
      by_cases hiw : i < words.length
      · have hrl1 : runLen words i = 1 := by
          rw [runLen_pos words i hiw]
          rw [List.drop_eq_nil_of_le (by omega : words.length ≤ i + 1)]
          rfl
        simp only [specFromF, if_pos hiw, hrl1]
        rw [specF_stop words fuel (i + 1) (by omega)]
        simp
      · rw [specF_stop words (fuel + 1) i (by omega)]

/-- **C3**.  The `WordRepeatDetector` records exactly one
`RepeatInstance` per maximal run (length ≥ 2) of equal consecutive
non-marker tokens, with `count` the run length and `position` the run
start (`detect_immediate_repeats = specRepeats` on every token list);
in particular the turn text `"we need to to to finish"` yields exactly
one instance with word `"to"` and count 3, contributing
`count - 1 = 2` extra occurrences to the totals. -/
theorem C3_repeat_runs :
    (∀ words, detect_immediate_repeats words = specRepeats words) ∧
    detect_immediate_repeats
        (tokenize_basic (clean_text_remove_brackets "we need to to to finish".toList)) =
      [{ word := "to".toList, count := 3, position := 2,
         context := "we need **to** **to** **to** finish".toList }] ∧
    repsExtra (detect_immediate_repeats
        (tokenize_basic (clean_text_remove_brackets "we need to to to finish".toList))) = 2 := by
  refine ⟨?_, by decide, by decide⟩
  intro words
  exact detectF_eq_specF words words.length 0 (by omega) (Or.inl rfl)

/-! ## Claim C6: cue-normalization idempotence -/

theorem toLower_idem (c : Char) : c.toLower.toLower = c.toLower := by
  unfold Char.toLower
  by_cases h : Char.toNat c ≥ 65 ∧ Char.toNat c ≤ 90
  · rw [if_pos h]
    have hv : (Char.toNat c + 32).isValidChar := Or.inl (by omega)
    have ht : (Char.ofNat (Char.toNat c + 32)).toNat = Char.toNat c + 32 := by
      rw [Char.ofNat, dif_pos hv]
      simp [Char.ofNatAux, Char.toNat, UInt32.toNat, BitVec.toNat_ofNatLt]
    rw [ht]
    rw [if_neg (by omega)]
  · rw [if_neg h, if_neg h]

theorem lowerStr_map_fixed {m : List Char} (h : ∀ c ∈ m, c.toLower = c) :
    lowerStr m = m := by
  unfold lowerStr
  have hc := List.map_congr_left h
  rw [hc]
  exact List.map_id' m

theorem mem_lowerStr_fixed (l : List Char) : ∀ c ∈ lowerStr l, c.toLower = c := by
  intro c hc
  unfold lowerStr at hc
  rw [List.mem_map] at hc
  obtain ⟨c', _, rfl⟩ := hc
  exact toLower_idem c'

theorem pyStrip_sublist (l : List Char) : List.Sublist (pyStrip l) l := by
  unfold pyStrip
  have h2 : List.Sublist ((l.dropWhile pyWS).reverse.dropWhile pyWS)
      (l.dropWhile pyWS).reverse := List.dropWhile_sublist _
  have h3 := h2.reverse
  rw [List.reverse_reverse] at h3
  exact h3.trans (List.dropWhile_sublist _)

theorem stripBrk_sublist (s : List Char) : List.Sublist (stripBrk s) s := by
  unfold stripBrk
  by_cases hh : s.head? = some '['
  · rw [if_pos hh]
    by_cases hl : s.tail.getLast? = some ']'
    · rw [if_pos hl]
      exact (List.dropLast_sublist _).trans (List.tail_sublist s)
    · rw [if_neg hl]
      exact List.tail_sublist s
  · rw [if_neg hh]
    by_cases hl : s.getLast? = some ']'
    · rw [if_pos hl]
      exact List.dropLast_sublist s
    · rw [if_neg hl]

theorem cue_clean_lower (x : List Char) : lowerStr (cue_clean_of x) = cue_clean_of x := by
  apply lowerStr_map_fixed
  intro c hc
  have hsub := (stripBrk_sublist (pyStrip (lowerStr x))).trans (pyStrip_sublist (lowerStr x))
  exact mem_lowerStr_fixed x c (hsub.subset hc)

theorem stripBrk_eq_self {s : List Char} (h3 : s.head? ≠ some '[')
    (h4 : s.getLast? ≠ some ']') : stripBrk s = s := by
  unfold stripBrk
  rw [if_neg h3, if_neg h4]

/-- **C6** (amended).  Cue normalization is idempotent on every
*canonical* result: whenever `normalize_nonverbal_cue x = some y` and
the produced text `y` is nonempty, carries no leading/trailing
whitespace, and does not itself start with `[` or end with `]`,
re-normalizing gives `normalize_nonverbal_cue y = some y`.  (In full
generality the claim fails: stripping the bracket pair can expose
surrounding whitespace, further brackets, or the empty string — see
`C6_counterexample`.) -/
theorem C6_normalize_idempotent (x y : List Char)
    (h : normalize_nonverbal_cue x = some y) (h1 : y ≠ [])
    (h2 : pyStrip y = y) (h3 : y.head? ≠ some '[') (h4 : y.getLast? ≠ some ']') :
    normalize_nonverbal_cue y = some y := by
  unfold normalize_nonverbal_cue at h
  by_cases hxe : x.isEmpty
  · rw [if_pos hxe] at h
    exact absurd h (by simp)
  · rw [if_neg hxe] at h
    cases hfind : cueRules.find? (fun r => r.1 (cue_clean_of x)) with
    | some r =>
      rw [hfind] at h
      have hy : r.2 = y := Option.some.inj h
      subst hy
      have hmem := List.mem_of_find?_eq_some hfind
      simp only [cueRules, List.mem_cons, List.not_mem_nil, or_false] at hmem
      rcases hmem with hm|hm|hm|hm|hm|hm|hm|hm|hm|hm|hm|hm|hm|hm|hm|hm|hm|hm <;>
        rw [hm] <;> decide
    | none =>
      rw [hfind] at h
      by_cases hex : cue_exclusions (cue_clean_of x) = true
      · rw [if_pos hex] at h
        exact absurd h (by simp)
      · rw [if_neg hex] at h
        have hy : cue_clean_of x = y := Option.some.inj h
        have hl : lowerStr y = y := by
          rw [← hy]
          exact cue_clean_lower x
        have hcc : cue_clean_of y = y := by
          unfold cue_clean_of
          rw [hl, h2, stripBrk_eq_self h3 h4]
        have hfind' : cueRules.find? (fun r => r.1 y) = none := by
          rw [← hy]
          exact hfind
        have hex' : ¬ cue_exclusions y = true := by
          rw [← hy]
          exact hex
        unfold normalize_nonverbal_cue
        rw [if_neg (by simpa using h1)]
        rw [hcc, hfind', if_neg hex']

/-- Witness for `C6_normalize_idempotent` at the raw cue `"[laughs]"`
(normalized to the canonical category `laughter`). -/
theorem C6_normalize_idempotent_witness :
    normalize_nonverbal_cue "laughter".toList = some "laughter".toList :=
  C6_normalize_idempotent "[laughs]".toList "laughter".toList (by decide) (by decide)
    (by decide) (by decide) (by decide)

/-! ## Claim C7: the filled-pause scan

The `finditer` scan over `\b(um|umm|…|em)\b` is shown to return exactly
the maximal word-character runs whose lowercase form is in the
filled-pause set: an alternative that matches at a boundary with a
trailing boundary necessarily spans a whole maximal word run, so the
alternation order is irrelevant. -/

theorem wordChar_of_toLower {x : Char} (h : wordChar x.toLower = true) :
    wordChar x = true := by
  unfold Char.toLower at h
  by_cases hr : Char.toNat x ≥ 65 ∧ Char.toNat x ≤ 90
  · unfold wordChar Char.isAlphanum Char.isAlpha Char.isUpper
    have h65 : (65 : UInt32) ≤ x.val := by
      rw [UInt32.le_def, BitVec.le_def]
      have h1 : x.val.toBitVec.toNat = Char.toNat x := rfl
      have h2 : (UInt32.toBitVec 65).toNat = 65 := rfl
      omega
    have h90 : x.val ≤ (90 : UInt32) := by
      rw [UInt32.le_def, BitVec.le_def]
      have h1 : x.val.toBitVec.toNat = Char.toNat x := rfl
      have h2 : (UInt32.toBitVec 90).toNat = 90 := rfl
      omega
    simp [h65, h90]
  · rw [if_neg hr] at h
    exact h

theorem alts_words : ∀ t ∈ filledPauseAlts, ∀ ch ∈ t, wordChar ch = true := by decide

theorem alts_lower : ∀ t ∈ filledPauseAlts, lowerStr t = t := by decide

theorem alts_ne_nil : ∀ t ∈ filledPauseAlts, t ≠ [] := by decide

theorem lowerStr_idem (l : List Char) : lowerStr (lowerStr l) = lowerStr l :=
  lowerStr_map_fixed (mem_lowerStr_fixed l)

theorem matchesAtCI_iff (t : List Char) :
    ∀ cs, matchesAtCI t cs = true ↔
      t.length ≤ cs.length ∧ lowerStr (cs.take t.length) = lowerStr t := by
  induction t with
  | nil => intro cs; simp [matchesAtCI, lowerStr]
  | cons p ps ih =>
    intro cs
    cases cs with
    | nil => simp [matchesAtCI]
    | cons c rest =>
      have hu : matchesAtCI (p :: ps) (c :: rest) =
          (decide (p.toLower = c.toLower) && matchesAtCI ps rest) := rfl
      rw [hu]
      simp only [Bool.and_eq_true, decide_eq_true_eq, ih rest, List.length_cons,
        Nat.succ_le_succ_iff, List.take_succ_cons, lowerStr, List.map_cons, List.cons.injEq]
      constructor
      · rintro ⟨h1, h2, h3⟩
        exact ⟨h2, h1.symm, h3⟩
      · rintro ⟨h1, h2, h3⟩
        exact ⟨h2.symm, h1, h3⟩

theorem takeWhile_eq_take_of (p : Char → Bool) :
    ∀ (n : Nat) (cs : List Char), (∀ ch ∈ cs.take n, p ch = true) →
      (match cs.drop n with | [] => True | d :: _ => p d = false) →
      cs.takeWhile p = cs.take n := by
  intro n
  induction n with
  | zero =>
    intro cs _ h2
    cases cs with
    | nil => rfl
    | cons d tl =>
      simp only [List.drop_zero] at h2
      have hnd : ¬ p d = true := by simp [h2]
      rw [List.take_zero, List.takeWhile_cons_of_neg hnd]
  | succ n ih =>
    intro cs h1 h2
    cases cs with
    | nil => rfl
    | cons c rest =>
      have hc : p c = true := h1 c (by simp)
      rw [List.takeWhile_cons_of_pos hc, List.take_succ_cons]
      congr 1
      exact ih rest (fun ch hch => h1 ch (by simp [hch])) h2

theorem dropWhile_head_false {p : Char → Bool} {l : List Char} {d : Char} {tl : List Char}
    (h : l.dropWhile p = d :: tl) : p d = false := by
  have hh := List.head?_dropWhile_not p l
  rw [h] at hh
  simpa using hh

theorem drop_takeWhile_length (p : Char → Bool) :
    ∀ l : List Char, l.drop (l.takeWhile p).length = l.dropWhile p := by
  intro l
  induction l with
  | nil => rfl
  | cons c rest ih =>
    by_cases hc : p c
    · rw [List.takeWhile_cons_of_pos hc, List.dropWhile_cons_of_pos hc]
      simpa using ih
    · rw [List.takeWhile_cons_of_neg hc, List.dropWhile_cons_of_neg hc]
      rfl

theorem tryAlt_some {c : Char} {rest tok : List Char} (hw : wordChar c = true)
    (h : tryAlt (c :: rest) = some tok) :
    tok = c :: rest.takeWhile wordChar ∧
    filledPauseAlts.contains (lowerStr tok) = true := by
  unfold tryAlt at h
  cases hfind : filledPauseAlts.find?
      (fun t => matchesAtCI t (c :: rest) && boundaryAfter t (c :: rest)) with
  | none => rw [hfind] at h; simp at h
  | some t =>
    rw [hfind] at h
    simp only [Option.map_some'] at h
    have hmem := List.mem_of_find?_eq_some hfind
    have hpred := List.find?_some hfind
    rw [Bool.and_eq_true] at hpred
    obtain ⟨hm, hb⟩ := hpred
    obtain ⟨hlen, hlow⟩ := (matchesAtCI_iff t (c :: rest)).mp hm
    have hword : ∀ ch ∈ (c :: rest).take t.length, wordChar ch = true := by
      intro ch hch
      have hmm : ch.toLower ∈ lowerStr ((c :: rest).take t.length) :=
        List.mem_map_of_mem _ hch
      rw [hlow, alts_lower t hmem] at hmm
      exact wordChar_of_toLower (alts_words t hmem _ hmm)
    have hbm : (match (c :: rest).drop t.length with
        | [] => True | d :: _ => wordChar d = false) := by
      unfold boundaryAfter at hb
      cases hd : (c :: rest).drop t.length with
      | nil => trivial
      | cons d tl => rw [hd] at hb; simpa using hb
    have htake := takeWhile_eq_take_of wordChar t.length (c :: rest) hword hbm
    have hrun : (c :: rest).takeWhile wordChar = c :: rest.takeWhile wordChar :=
      List.takeWhile_cons_of_pos hw
    have htok : tok = List.take t.length (c :: rest) := (Option.some.inj h).symm
    constructor
    · rw [htok, ← htake, hrun]
    · rw [htok]
      have hlt : lowerStr ((c :: rest).take t.length) = t := by
        rw [hlow, alts_lower t hmem]
      rw [hlt]
      have helem : filledPauseAlts.elem t = true := List.elem_iff.mpr hmem
      exact helem

theorem tryAlt_nonword {c : Char} {rest : List Char} (hw : wordChar c = false) :
    tryAlt (c :: rest) = none := by
  unfold tryAlt
  rw [List.find?_eq_none.mpr ?_]
  · rfl
  intro t hmem hpred
  rw [Bool.and_eq_true] at hpred
  have hm := hpred.1
  cases t with
  | nil => exact absurd rfl (alts_ne_nil [] hmem)
  | cons tc ts =>
    have hmc : (decide (tc.toLower = c.toLower) && matchesAtCI ts rest) = true := hm
    rw [Bool.and_eq_true, decide_eq_true_eq] at hmc
    have htcw : wordChar tc = true := alts_words _ hmem tc (by simp)
    have hlow : tc.toLower = tc := by
      have hl := alts_lower _ hmem
      simp only [lowerStr, List.map_cons, List.cons.injEq] at hl
      exact hl.1
    have hc : c.toLower = tc := by rw [← hmc.1, hlow]
    have hwl : wordChar c.toLower = true := by rw [hc]; exact htcw
    rw [wordChar_of_toLower hwl] at hw
    exact absurd hw (by simp)

theorem tryAlt_none_contains {c : Char} {rest : List Char} (hw : wordChar c = true)
    (h : tryAlt (c :: rest) = none) :
    filledPauseAlts.contains (lowerStr (c :: rest.takeWhile wordChar)) = false := by
  by_contra hcon
  rw [Bool.not_eq_false] at hcon
  have hmem : lowerStr (c :: rest.takeWhile wordChar) ∈ filledPauseAlts :=
    List.elem_iff.mp hcon
  have hrun : (c :: rest).takeWhile wordChar = c :: rest.takeWhile wordChar :=
    List.takeWhile_cons_of_pos hw
  set t := lowerStr (c :: rest.takeWhile wordChar) with ht
  have hpre : (c :: rest).takeWhile wordChar =
      (c :: rest).take ((c :: rest).takeWhile wordChar).length :=
    List.prefix_iff_eq_take.mp (List.takeWhile_prefix _)
  have htlen : t.length = ((c :: rest).takeWhile wordChar).length := by
    rw [ht, hrun]
    simp [lowerStr]
  have hm : matchesAtCI t (c :: rest) = true := by
    rw [matchesAtCI_iff]
    constructor
    · rw [htlen]
      exact (List.takeWhile_sublist _).length_le
    · rw [htlen, ← hpre, ht, hrun]
      exact (lowerStr_idem _).symm ▸ lowerStr_idem _
  have hb : boundaryAfter t (c :: rest) = true := by
    unfold boundaryAfter
    rw [htlen]
    rw [drop_takeWhile_length wordChar (c :: rest)]
    cases hdw : (c :: rest).dropWhile wordChar with
    | nil => rfl
    | cons d tl => simp [dropWhile_head_false hdw]
  have hsome : (filledPauseAlts.find?
      (fun u => matchesAtCI u (c :: rest) && boundaryAfter u (c :: rest))).isSome := by
    rw [List.find?_isSome]
    exact ⟨t, hmem, by simp [hm, hb]⟩
  unfold tryAlt at h
  rw [Option.map_eq_none'] at h
  rw [h] at hsome
  simp at hsome

theorem scanFPGo_skip :
    ∀ (cs : List Char) (n : Nat) (b : Bool), scanFPGo n b cs = scanFPGo 0 b (cs.drop n) := by
  intro cs
  induction cs with
  | nil => intro n b; cases n <;> rfl
  | cons c rest ih =>
    intro n b
    cases n with
    | zero => rfl
    | succ m => simpa using ih m b

theorem scanFPGo_true_nonword :
    ∀ (cs : List Char), (match cs with | [] => True | d :: _ => wordChar d = false) →
      scanFPGo 0 true cs = scanFPGo 0 false cs := by
  intro cs h
  cases cs with
  | nil => rfl
  | cons d tl =>
    simp only at h
    have hu1 : scanFPGo 0 true (d :: tl) =
        (if (true != wordChar d) = true then
          match tryAlt (d :: tl) with
          | some tok => tok :: scanFPGo (tok.length - 1) true tl
          | none => scanFPGo 0 (wordChar d) tl
        else scanFPGo 0 (wordChar d) tl) := rfl
    have hu2 : scanFPGo 0 false (d :: tl) =
        (if (false != wordChar d) = true then
          match tryAlt (d :: tl) with
          | some tok => tok :: scanFPGo (tok.length - 1) true tl
          | none => scanFPGo 0 (wordChar d) tl
        else scanFPGo 0 (wordChar d) tl) := rfl
    rw [hu1, hu2, h, tryAlt_nonword h]
    simp

theorem scanFPGo_run :
    ∀ (pre rest' : List Char), (∀ ch ∈ pre, wordChar ch = true) →
      scanFPGo 0 true (pre ++ rest') = scanFPGo 0 true rest' := by
  intro pre
  induction pre with
  | nil => intro rest' _; rfl
  | cons p ps ih =>
    intro rest' h
    have hp : wordChar p = true := h p (by simp)
    have hu : scanFPGo 0 true (p :: (ps ++ rest')) =
        (if (true != wordChar p) = true then
          match tryAlt (p :: (ps ++ rest')) with
          | some tok => tok :: scanFPGo (tok.length - 1) true (ps ++ rest')
          | none => scanFPGo 0 (wordChar p) (ps ++ rest')
        else scanFPGo 0 (wordChar p) (ps ++ rest')) := rfl
    rw [List.cons_append, hu, hp]
    simp only [bne_self_eq_false, Bool.false_eq_true, if_false]
    exact ih rest' (fun ch hch => h ch (by simp [hch]))

theorem wordRunsAux_acc :
    ∀ (cs acc : List Char), acc ≠ [] →
      wordRunsAux acc cs =
        (acc.reverse ++ cs.takeWhile wordChar) :: wordRuns (cs.dropWhile wordChar) := by
  intro cs
  induction cs with
  | nil =>
    intro acc h
    simp [wordRunsAux, wordRuns, List.isEmpty_iff, h]
  | cons c rest ih =>
    intro acc h
    by_cases hw : wordChar c
    · rw [show wordRunsAux acc (c :: rest) = wordRunsAux (c :: acc) rest from by
        simp [wordRunsAux, hw]]
      rw [ih (c :: acc) (by simp)]
      simp [List.takeWhile_cons_of_pos hw, List.dropWhile_cons_of_pos hw]
    · rw [show wordRunsAux acc (c :: rest) = acc.reverse :: wordRunsAux [] rest from by
        simp [wordRunsAux, hw, List.isEmpty_iff, h]]
      rw [List.takeWhile_cons_of_neg (by simp [hw]), List.dropWhile_cons_of_neg (by simp [hw])]
      rw [show wordRuns (c :: rest) = wordRunsAux [] rest from by
        simp [wordRuns, wordRunsAux, hw]]
      simp

theorem scanFP_eq_runs :
    ∀ (n : Nat) (cs : List Char), cs.length ≤ n →
      scanFPGo 0 false cs =
        (wordRuns cs).filter (fun r => filledPauseAlts.contains (lowerStr r)) := by
  intro n
  induction n with
  | zero =>
    intro cs h
    rw [List.length_eq_zero.mp (Nat.le_zero.mp h)]
    rfl
  | succ n ih =>
    intro cs hlen
    cases cs with
    | nil => rfl
    | cons c rest =>
      simp only [List.length_cons, Nat.succ_le_succ_iff] at hlen
      by_cases hw : wordChar c
      · have hruns : wordRuns (c :: rest) =
            (c :: rest.takeWhile wordChar) :: wordRuns (rest.dropWhile wordChar) := by
          rw [show wordRuns (c :: rest) = wordRunsAux [c] rest from by
            simp [wordRuns, wordRunsAux, hw]]
          rw [wordRunsAux_acc rest [c] (by simp)]
          simp
        have hafter : (match rest.dropWhile wordChar with
            | [] => True | d :: _ => wordChar d = false) := by
          cases hdw : rest.dropWhile wordChar with
          | nil => trivial
          | cons d tl => exact dropWhile_head_false hdw
        have hdwlen : (rest.dropWhile wordChar).length ≤ n :=
          Nat.le_trans ((List.dropWhile_sublist _).length_le) hlen
        cases htry : tryAlt (c :: rest) with
        | some tok =>
          obtain ⟨htok, hcont⟩ := tryAlt_some hw htry
          have hscan : scanFPGo 0 false (c :: rest) =
              tok :: scanFPGo (tok.length - 1) true rest := by
            have hu : scanFPGo 0 false (c :: rest) =
                (if (false != wordChar c) = true then
                  match tryAlt (c :: rest) with
                  | some tok => tok :: scanFPGo (tok.length - 1) true rest
                  | none => scanFPGo 0 (wordChar c) rest
                else scanFPGo 0 (wordChar c) rest) := rfl
            rw [hu, hw, htry]
            simp
          rw [hscan, scanFPGo_skip, hruns]
          have hdroplen : rest.drop (tok.length - 1) = rest.dropWhile wordChar := by
            rw [htok]
            simp only [List.length_cons, Nat.add_sub_cancel]
            exact drop_takeWhile_length wordChar rest
          rw [hdroplen, scanFPGo_true_nonword _ hafter, ih _ hdwlen]
          have hcont' : filledPauseAlts.contains (lowerStr (c :: rest.takeWhile wordChar)) = true := by
            rw [← htok]
            exact hcont
          have hmemrun : lowerStr (c :: rest.takeWhile wordChar) ∈ filledPauseAlts :=
            List.elem_iff.mp hcont'
          rw [htok, List.filter_cons]
          simp [hmemrun]
        | none =>
          have hcont := tryAlt_none_contains hw htry
          have hscan : scanFPGo 0 false (c :: rest) = scanFPGo 0 true rest := by
            have hu : scanFPGo 0 false (c :: rest) =
                (if (false != wordChar c) = true then
                  match tryAlt (c :: rest) with
                  | some tok => tok :: scanFPGo (tok.length - 1) true rest
                  | none => scanFPGo 0 (wordChar c) rest
                else scanFPGo 0 (wordChar c) rest) := rfl
            rw [hu, hw, htry]
            simp
          rw [hscan]
          conv_lhs => rw [show rest = rest.takeWhile wordChar ++ rest.dropWhile wordChar from
            (List.takeWhile_append_dropWhile _ _).symm]
          rw [scanFPGo_run _ _ (fun ch hch => List.mem_takeWhile_imp hch),
            scanFPGo_true_nonword _ hafter, ih _ hdwlen, hruns]
          have hnmem : lowerStr (c :: rest.takeWhile wordChar) ∉ filledPauseAlts := by
            intro hm
            have hcc : filledPauseAlts.contains (lowerStr (c :: rest.takeWhile wordChar)) = true :=
              List.elem_iff.mpr hm
            rw [hcc] at hcont
            exact absurd hcont (by simp)
          rw [List.filter_cons]
          simp [hnmem]
      · have hscan : scanFPGo 0 false (c :: rest) = scanFPGo 0 false rest := by
          have hu : scanFPGo 0 false (c :: rest) =
              (if (false != wordChar c) = true then
                match tryAlt (c :: rest) with
                | some tok => tok :: scanFPGo (tok.length - 1) true rest
                | none => scanFPGo 0 (wordChar c) rest
              else scanFPGo 0 (wordChar c) rest) := rfl
          rw [hu]
          simp [hw]
        have hruns : wordRuns (c :: rest) = wordRuns rest := by
          simp [wordRuns, wordRunsAux, hw]
        rw [hscan, hruns, ih rest hlen]

/-- **C7** (amended).  The DisfluencyDetector records one
`DisfluencyInstance` per word-boundary-delimited occurrence
(case-insensitive, original casing preserved, document order) of a
filled-pause token — but in the text obtained by first replacing every
`"/2019s"` with an apostrophe, not in the raw turn text (see
`C7_counterexample`); and the filled-pause alternation is exactly the
word-count exclusion set `DISFLUENCIES`. -/
theorem C7_disfluency_scan (text : List Char) :
    detect_disfluencies text =
      claimDisfluencies (replaceSub "/2019s".toList "'".toList text) ∧
    filledPauseAlts = DISFLUENCIES := by
  refine ⟨?_, by decide⟩
  unfold detect_disfluencies claimDisfluencies scanFP
  rw [scanFP_eq_runs (replaceSub "/2019s".toList "'".toList text).length _ (Nat.le_refl _)]

/-- **C10** counterexample: for the (adversarial) participant id
`"vr1_c:vr1"` and text `"vr1_c:vr1_c:vr1_p:Z"` the per-speaker
`findall` and the combined-tag scan disagree: the former yields one PLWD
segment `"Z"`, the latter yields no PLWD turn (the overlapping PLWD tag
starts inside the caregiver tag already consumed by the combined scan). -/
theorem C10_counterexample :
    (findall_segments "vr1_c:vr1".toList false "vr1_c:vr1_c:vr1_p:Z".toList).map pyStrip =
      ["Z".toList] ∧
    ((split_turns "vr1_c:vr1_c:vr1_p:Z".toList "vr1_c:vr1".toList).filter
      (fun t => t.speaker == "plwd".toList)).map Turn.text = [] := by decide

/-! ## C10: the two turn segmentations agree for well-formed participant ids

The combined-tag scan of `split_turns` consumes each speaker tag it
matches, while the per-speaker `findall` re-examines every character
position when not collecting.  For a participant id of the shape the
extractor produces (`vr`, optional `x`, digits) the two agree, because
inside a tag occurrence no further tag can start: every character of a
tag after its first lowers to something other than `v`. -/

theorem digit_toLower {c : Char} (h : c.isDigit = true) : c.toLower = c := by
  unfold Char.isDigit at h
  simp only [Bool.and_eq_true, decide_eq_true_eq] at h
  unfold Char.toLower
  rw [if_neg]
  intro hr
  have h1 : c.val ≤ (57 : UInt32) := h.2
  rw [UInt32.le_def, BitVec.le_def] at h1
  have ha : c.val.toBitVec.toNat = Char.toNat c := rfl
  have hb : (UInt32.toBitVec 57).toNat = 57 := rfl
  have h3 : Char.toNat c ≥ 65 := hr.1
  omega

theorem digit_toLower_ne_v {c : Char} (h : c.isDigit = true) : c.toLower ≠ 'v' := by
  rw [digit_toLower h]
  unfold Char.isDigit at h
  simp only [Bool.and_eq_true, decide_eq_true_eq] at h
  intro he
  rw [he] at h
  have h1 : ('v').val ≤ (57 : UInt32) := h.2
  rw [UInt32.le_def, BitVec.le_def] at h1
  have ha : (UInt32.toBitVec ('v').val).toNat = 118 := rfl
  have hb : (UInt32.toBitVec (57 : UInt32)).toNat = 57 := rfl
  omega

theorem wf_pid_shape {pid : List Char} (hwf : wellFormedPid pid = true) :
    ∃ tl, pid = 'v' :: tl ∧ ∀ ch ∈ tl, ch.toLower ≠ 'v' := by
  unfold wellFormedPid at hwf
  split at hwf
  · next c rest =>
    refine ⟨'r' :: c :: rest, rfl, ?_⟩
    intro ch hch
    split at hwf
    · next hx =>
      simp only [Bool.and_eq_true, List.all_eq_true] at hwf
      rcases hwf with ⟨-, hdig⟩
      subst hx
      simp only [List.mem_cons] at hch
      rcases hch with h | h | h
      · subst h; decide
      · subst h; decide
      · exact digit_toLower_ne_v (hdig ch h)
    · next hx =>
      simp only [List.all_eq_true] at hwf
      simp only [List.mem_cons] at hch
      rcases hch with h | h
      · subst h; decide
      · have hmem : ch ∈ c :: rest := List.mem_cons.mpr h
        exact digit_toLower_ne_v (hwf ch hmem)
  · simp at hwf

theorem tag_tail_ne_v {pid : List Char} (hwf : wellFormedPid pid = true)
    {T : List Char} (hT : T = cgTag pid ∨ T = pwTag pid) :
    ∀ ch ∈ T.drop 1, ch.toLower ≠ 'v' := by
  obtain ⟨tl, hpid, htl⟩ := wf_pid_shape hwf
  intro ch hch
  rcases hT with h | h
  · subst h
    rw [hpid] at hch
    have heq : (cgTag ('v' :: tl)).drop 1 = tl ++ "_c:".toList := rfl
    rw [heq] at hch
    rcases List.mem_append.mp hch with h1 | h1
    · exact htl ch h1
    · exact (by decide : ∀ x ∈ "_c:".toList, x.toLower ≠ 'v') ch h1
  · subst h
    rw [hpid] at hch
    have heq : (pwTag ('v' :: tl)).drop 1 = tl ++ "_p:".toList := rfl
    rw [heq] at hch
    rcases List.mem_append.mp hch with h1 | h1
    · exact htl ch h1
    · exact (by decide : ∀ x ∈ "_p:".toList, x.toLower ≠ 'v') ch h1

theorem matchesAtCI_drop : ∀ (j : Nat) (t cs : List Char), matchesAtCI t cs = true →
    matchesAtCI (t.drop j) (cs.drop j) = true := by
  intro j
  induction j with
  | zero => intro t cs hm; simpa using hm
  | succ k ih =>
    intro t cs hm
    match t, cs with
    | [], _ => simp [matchesAtCI]
    | p :: ps, [] => exact absurd hm (by simp [matchesAtCI])
    | p :: ps, c :: cr =>
      have hu : matchesAtCI (p :: ps) (c :: cr) =
          (decide (p.toLower = c.toLower) && matchesAtCI ps cr) := rfl
      rw [hu] at hm
      simp only [Bool.and_eq_true] at hm
      have h2 := ih ps cr hm.2
      simpa using h2

theorem tags_not_both {pid cs : List Char} (hc : matchesAtCI (cgTag pid) cs = true)
    (hp : matchesAtCI (pwTag pid) cs = true) : False := by
  have h1 := (matchesAtCI_iff _ cs).mp hc
  have h2 := (matchesAtCI_iff _ cs).mp hp
  have hlen : (cgTag pid).length = (pwTag pid).length := by
    have h3 : ("_c:".toList).length = 3 := rfl
    have h3p : ("_p:".toList).length = 3 := rfl
    simp [cgTag, pwTag, h3, h3p]
  have he : lowerStr (cgTag pid) = lowerStr (pwTag pid) := by
    rw [← h1.2, ← h2.2, hlen]
  simp only [cgTag, pwTag, lowerStr, List.map_append] at he
  have he2 := List.append_cancel_left he
  exact absurd he2 (by decide)

theorem tag_interior_no_match {pid : List Char} (hwf : wellFormedPid pid = true)
    {T S cs : List Char} (hT : T = cgTag pid ∨ T = pwTag pid)
    (hS : S = cgTag pid ∨ S = pwTag pid)
    (hm : matchesAtCI T cs = true) {j : Nat} (hj1 : 1 ≤ j)
    (hj2 : j ≤ pid.length + 2) :
    matchesAtCI S (cs.drop j) = false := by
  obtain ⟨tl, hpid, _⟩ := wf_pid_shape hwf
  have hShead : ∃ stl, S = 'v' :: stl := by
    rcases hS with h | h
    · subst h; rw [hpid]; exact ⟨tl ++ "_c:".toList, rfl⟩
    · subst h; rw [hpid]; exact ⟨tl ++ "_p:".toList, rfl⟩
  obtain ⟨stl, hSs⟩ := hShead
  have hdropT := matchesAtCI_drop j T cs hm
  have hTlen : T.length = pid.length + 3 := by
    have h3 : ("_c:".toList).length = 3 := rfl
    have h3p : ("_p:".toList).length = 3 := rfl
    rcases hT with h | h
    · subst h; simp [cgTag, h3]
    · subst h; simp [pwTag, h3p]
  have hTdl : 0 < (T.drop j).length := by
    rw [List.length_drop]
    omega
  cases hTj : T.drop j with
  | nil => rw [hTj] at hTdl; simp at hTdl
  | cons tc tr =>
    have htc : tc ∈ T.drop 1 := by
      have hsub : T.drop j = (T.drop 1).drop (j - 1) := by
        rw [List.drop_drop]
        congr 1
        omega
      have hmem : tc ∈ T.drop j := by
        rw [hTj]; exact List.mem_cons_self tc tr
      rw [hsub] at hmem
      exact List.drop_subset _ _ hmem
    have hne := tag_tail_ne_v hwf hT tc htc
    cases hcd : cs.drop j with
    | nil =>
      rw [hSs]
      rfl
    | cons d dr =>
      rw [hTj, hcd] at hdropT
      have hu : matchesAtCI (tc :: tr) (d :: dr) =
          (decide (tc.toLower = d.toLower) && matchesAtCI tr dr) := rfl
      rw [hu] at hdropT
      simp only [Bool.and_eq_true, decide_eq_true_eq] at hdropT
      have hvl : ('v').toLower = 'v' := rfl
      have hdne : ¬ ('v').toLower = d.toLower := by
        rw [hvl]
        intro he
        exact hne (hdropT.1.trans he.symm)
      rw [hSs]
      have hu2 : matchesAtCI ('v' :: stl) (d :: dr) =
          (decide (('v').toLower = d.toLower) && matchesAtCI stl dr) := rfl
      rw [hu2, decide_eq_false hdne]
      simp

theorem speakerTag_or (pid : List Char) (isCg : Bool) :
    speakerTag pid isCg = cgTag pid ∨ speakerTag pid isCg = pwTag pid := by
  cases isCg
  · exact Or.inr rfl
  · exact Or.inl rfl

theorem speakerTag_isMarker {pid cs : List Char} {isCg : Bool}
    (h : matchesAtCI (speakerTag pid isCg) cs = true) : isMarker pid cs = true := by
  cases isCg with
  | true =>
    have hc : matchesAtCI (cgTag pid) cs = true := by simpa [speakerTag] using h
    simp [isMarker, hc]
  | false =>
    have hc : matchesAtCI (pwTag pid) cs = true := by simpa [speakerTag] using h
    simp [isMarker, hc]

theorem spk_eq_of_our {pid cs : List Char} {isCg : Bool}
    (h : matchesAtCI (speakerTag pid isCg) cs = true) :
    (if matchesAtCI (cgTag pid) cs = true then "caregiver".toList
      else "plwd".toList) = spkName isCg := by
  cases isCg with
  | true =>
    have hcg : matchesAtCI (cgTag pid) cs = true := by simpa [speakerTag] using h
    rw [if_pos hcg]
    simp [spkName]
  | false =>
    have hpw : matchesAtCI (pwTag pid) cs = true := by simpa [speakerTag] using h
    have hcg : matchesAtCI (cgTag pid) cs = false := by
      cases hc : matchesAtCI (cgTag pid) cs with
      | false => rfl
      | true => exact (tags_not_both hc hpw).elim
    rw [if_neg (by simp [hcg])]
    simp [spkName]

theorem spk_ne_of_other {pid cs : List Char} {isCg : Bool}
    (hm : isMarker pid cs = true)
    (h : matchesAtCI (speakerTag pid isCg) cs = false) :
    ¬ (if matchesAtCI (cgTag pid) cs = true then "caregiver".toList
        else "plwd".toList) = spkName isCg := by
  cases isCg with
  | true =>
    have hcg : matchesAtCI (cgTag pid) cs = false := by simpa [speakerTag] using h
    rw [if_neg (by simp [hcg])]
    intro he
    exact absurd (by simpa [spkName] using he)
      (by decide : ¬ ("plwd".toList = "caregiver".toList))
  | false =>
    have hpw : matchesAtCI (pwTag pid) cs = false := by simpa [speakerTag] using h
    have hcg : matchesAtCI (cgTag pid) cs = true := by
      have h2 : (matchesAtCI (cgTag pid) cs || matchesAtCI (pwTag pid) cs) = true := by
        simpa [isMarker] using hm
      rw [hpw] at h2
      simpa using h2
    rw [if_pos hcg]
    intro he
    exact absurd (by simpa [spkName] using he)
      (by decide : ¬ ("caregiver".toList = "plwd".toList))

theorem findallScan_cons_false {pid : List Char} {isCg : Bool} {c : Char}
    {rest : List Char} :
    findallScan pid isCg false [] 0 (c :: rest) =
      (if matchesAtCI (speakerTag pid isCg) (c :: rest) = true
       then findallScan pid isCg true [] (pid.length + 2) rest
       else findallScan pid isCg false [] 0 rest) := rfl

theorem findallScan_cons_true {pid : List Char} {isCg : Bool} {acc : List Char}
    {c : Char} {rest : List Char} :
    findallScan pid isCg true acc 0 (c :: rest) =
      (if isMarker pid (c :: rest) = true then
        (if matchesAtCI (speakerTag pid isCg) (c :: rest) = true
         then acc.reverse :: findallScan pid isCg true [] (pid.length + 2) rest
         else acc.reverse :: findallScan pid isCg false [] 0 rest)
       else findallScan pid isCg true (c :: acc) 0 rest) := rfl

theorem splitScan_cons_none {pid : List Char} {c : Char} {rest : List Char} :
    splitScan pid none [] 0 (c :: rest) =
      (if isMarker pid (c :: rest) = true then
        splitScan pid (some (if matchesAtCI (cgTag pid) (c :: rest) = true
          then "caregiver".toList else "plwd".toList)) [] (pid.length + 2) rest
       else splitScan pid none [] 0 rest) := rfl

theorem splitScan_cons_some {pid sp acc : List Char} {c : Char} {rest : List Char} :
    splitScan pid (some sp) acc 0 (c :: rest) =
      (if isMarker pid (c :: rest) = true then
        ⟨sp, pyStrip acc.reverse⟩ :: splitScan pid
          (some (if matchesAtCI (cgTag pid) (c :: rest) = true
            then "caregiver".toList else "plwd".toList)) [] (pid.length + 2) rest
       else splitScan pid (some sp) (c :: acc) 0 rest) := rfl

theorem findallScan_skip (pid : List Char) (isCg collecting : Bool) (acc : List Char) :
    ∀ cs n, findallScan pid isCg collecting acc n cs =
      findallScan pid isCg collecting acc 0 (cs.drop n) := by
  intro cs
  induction cs with
  | nil =>
    intro n
    rw [List.drop_nil]
    rfl
  | cons c rest ih =>
    intro n
    cases n with
    | zero => rfl
    | succ p =>
      have h1 : findallScan pid isCg collecting acc (p + 1) (c :: rest) =
          findallScan pid isCg collecting acc p rest := rfl
      have h2 : (c :: rest).drop (p + 1) = rest.drop p := rfl
      rw [h1, h2, ih p]

theorem splitScan_skip (pid : List Char) (cur : Option (List Char)) (acc : List Char) :
    ∀ cs n, splitScan pid cur acc n cs = splitScan pid cur acc 0 (cs.drop n) := by
  intro cs
  induction cs with
  | nil =>
    intro n
    rw [List.drop_nil]
    rfl
  | cons c rest ih =>
    intro n
    cases n with
    | zero => rfl
    | succ p =>
      have h1 : splitScan pid cur acc (p + 1) (c :: rest) =
          splitScan pid cur acc p rest := rfl
      have h2 : (c :: rest).drop (p + 1) = rest.drop p := rfl
      rw [h1, h2, ih p]

theorem findall_pass (pid : List Char) (isCg : Bool) :
    ∀ k cs, (∀ j, j < k → matchesAtCI (speakerTag pid isCg) (cs.drop j) = false) →
      findallScan pid isCg false [] 0 cs = findallScan pid isCg false [] 0 (cs.drop k) := by
  intro k
  induction k with
  | zero => intro cs h; rfl
  | succ p ih =>
    intro cs h
    cases cs with
    | nil => rw [List.drop_nil]
    | cons c rest =>
      have h0 : matchesAtCI (speakerTag pid isCg) (c :: rest) = false := by
        have hh := h 0 (Nat.succ_pos p)
        simpa using hh
      rw [findallScan_cons_false, if_neg (by simp [h0])]
      have hdr : (c :: rest).drop (p + 1) = rest.drop p := rfl
      rw [hdr]
      exact ih rest (fun j hj => by
        have hh := h (j + 1) (Nat.succ_lt_succ hj)
        simpa using hh)

theorem findall_pass_tag {pid : List Char} {isCg : Bool} (hwf : wellFormedPid pid = true)
    {c : Char} {rest : List Char} (hm : isMarker pid (c :: rest) = true) :
    findallScan pid isCg false [] 0 rest =
      findallScan pid isCg false [] 0 (rest.drop (pid.length + 2)) := by
  have hmor : matchesAtCI (cgTag pid) (c :: rest) = true ∨
      matchesAtCI (pwTag pid) (c :: rest) = true := by
    simpa [isMarker] using hm
  apply findall_pass
  intro j hj
  have hdr : rest.drop j = (c :: rest).drop (j + 1) := rfl
  rw [hdr]
  rcases hmor with hc | hc
  · exact tag_interior_no_match hwf (Or.inl rfl) (speakerTag_or pid isCg) hc
      (Nat.succ_le_succ (Nat.zero_le j)) (by omega)
  · exact tag_interior_no_match hwf (Or.inr rfl) (speakerTag_or pid isCg) hc
      (Nat.succ_le_succ (Nat.zero_le j)) (by omega)

theorem filter_turn_cons_ne {sp x : List Char} {l : List Turn} {isCg : Bool}
    (hsp : ¬ sp = spkName isCg) :
    List.filter (fun t => t.speaker == spkName isCg) (Turn.mk sp x :: l) =
      List.filter (fun t => t.speaker == spkName isCg) l := by
  have hb : (sp == spkName isCg) = false := beq_eq_false_iff_ne.mpr hsp
  simp [List.filter_cons, hb]

theorem filter_turn_cons_eq {x : List Char} {l : List Turn} {isCg : Bool} :
    List.filter (fun t => t.speaker == spkName isCg) (Turn.mk (spkName isCg) x :: l) =
      Turn.mk (spkName isCg) x :: List.filter (fun t => t.speaker == spkName isCg) l := by
  simp [List.filter_cons]

theorem C10base (pid : List Char) (isCg : Bool) :
    ((findallScan pid isCg false [] 0 []).map pyStrip =
      ((splitScan pid none [] 0 []).filter
        (fun t => t.speaker == spkName isCg)).map Turn.text) ∧
    (∀ sp acc, ¬ sp = spkName isCg →
      (findallScan pid isCg false [] 0 []).map pyStrip =
      ((splitScan pid (some sp) acc 0 []).filter
        (fun t => t.speaker == spkName isCg)).map Turn.text) ∧
    (∀ acc,
      (findallScan pid isCg true acc 0 []).map pyStrip =
      ((splitScan pid (some (spkName isCg)) acc 0 []).filter
        (fun t => t.speaker == spkName isCg)).map Turn.text) := by
  refine ⟨rfl, fun sp acc hsp => ?_, fun acc => ?_⟩
  · have h1 : findallScan pid isCg false [] 0 [] = [] := rfl
    have h2 : splitScan pid (some sp) acc 0 [] = [Turn.mk sp (pyStrip acc.reverse)] := rfl
    rw [h1, h2, filter_turn_cons_ne hsp]
    rfl
  · have h1 : findallScan pid isCg true acc 0 [] = [acc.reverse] := rfl
    have h2 : splitScan pid (some (spkName isCg)) acc 0 [] =
        [Turn.mk (spkName isCg) (pyStrip acc.reverse)] := rfl
    rw [h1, h2, filter_turn_cons_eq]
    rfl

theorem C10go (pid : List Char) (isCg : Bool) (hwf : wellFormedPid pid = true) :
    ∀ n cs, cs.length ≤ n →
      ((findallScan pid isCg false [] 0 cs).map pyStrip =
        ((splitScan pid none [] 0 cs).filter
          (fun t => t.speaker == spkName isCg)).map Turn.text) ∧
      (∀ sp acc, ¬ sp = spkName isCg →
        (findallScan pid isCg false [] 0 cs).map pyStrip =
        ((splitScan pid (some sp) acc 0 cs).filter
          (fun t => t.speaker == spkName isCg)).map Turn.text) ∧
      (∀ acc,
        (findallScan pid isCg true acc 0 cs).map pyStrip =
        ((splitScan pid (some (spkName isCg)) acc 0 cs).filter
          (fun t => t.speaker == spkName isCg)).map Turn.text) := by
  intro n
  induction n with
  | zero =>
    intro cs hlen
    cases cs with
    | nil => exact C10base pid isCg
    | cons a l => exact absurd hlen (by simp)
  | succ m ih =>
    intro cs hlen
    cases cs with
    | nil => exact C10base pid isCg
    | cons c rest =>
      have hrl : rest.length ≤ m := by
        have hl := hlen
        simp only [List.length_cons] at hl
        omega
      have hdl : (rest.drop (pid.length + 2)).length ≤ m := by
        rw [List.length_drop]
        omega
      by_cases hm : isMarker pid (c :: rest) = true
      · by_cases hour : matchesAtCI (speakerTag pid isCg) (c :: rest) = true
        · have hspk := spk_eq_of_our hour
          have htailEq :
              (findallScan pid isCg true [] (pid.length + 2) rest).map pyStrip =
              ((splitScan pid (some (if matchesAtCI (cgTag pid) (c :: rest) = true
                  then "caregiver".toList else "plwd".toList)) []
                  (pid.length + 2) rest).filter
                (fun t => t.speaker == spkName isCg)).map Turn.text := by
            rw [findallScan_skip, splitScan_skip, hspk]
            exact (ih _ hdl).2.2 []
          refine ⟨?_, fun sp acc hsp => ?_, fun acc => ?_⟩
          · rw [findallScan_cons_false, if_pos hour, splitScan_cons_none, if_pos hm]
            exact htailEq
          · rw [findallScan_cons_false, if_pos hour, splitScan_cons_some, if_pos hm,
              filter_turn_cons_ne hsp]
            exact htailEq
          · rw [findallScan_cons_true, if_pos hm, if_pos hour, splitScan_cons_some,
              if_pos hm, filter_turn_cons_eq, List.map_cons, List.map_cons, htailEq]
        · have hourf : matchesAtCI (speakerTag pid isCg) (c :: rest) = false := by
            cases hh : matchesAtCI (speakerTag pid isCg) (c :: rest) with
            | false => rfl
            | true => exact absurd hh hour
          have hspkne := spk_ne_of_other hm hourf
          have hpass : findallScan pid isCg false [] 0 rest =
              findallScan pid isCg false [] 0 (rest.drop (pid.length + 2)) :=
            findall_pass_tag hwf hm
          have htailEq :
              (findallScan pid isCg false [] 0 rest).map pyStrip =
              ((splitScan pid (some (if matchesAtCI (cgTag pid) (c :: rest) = true
                  then "caregiver".toList else "plwd".toList)) []
                  (pid.length + 2) rest).filter
                (fun t => t.speaker == spkName isCg)).map Turn.text := by
            rw [hpass, splitScan_skip]
            exact (ih _ hdl).2.1 _ [] hspkne
          refine ⟨?_, fun sp acc hsp => ?_, fun acc => ?_⟩
          · rw [findallScan_cons_false, if_neg (by simp [hourf]), splitScan_cons_none,
              if_pos hm]
            exact htailEq
          · rw [findallScan_cons_false, if_neg (by simp [hourf]), splitScan_cons_some,
              if_pos hm, filter_turn_cons_ne hsp]
            exact htailEq
          · rw [findallScan_cons_true, if_pos hm, if_neg (by simp [hourf]),
              splitScan_cons_some, if_pos hm, filter_turn_cons_eq, List.map_cons,
              List.map_cons, htailEq]
      · have hourf : matchesAtCI (speakerTag pid isCg) (c :: rest) = false := by
          cases hh : matchesAtCI (speakerTag pid isCg) (c :: rest) with
          | false => rfl
          | true => exact absurd (speakerTag_isMarker hh) hm
        refine ⟨?_, fun sp acc hsp => ?_, fun acc => ?_⟩
        · rw [findallScan_cons_false, if_neg (by simp [hourf]), splitScan_cons_none,
            if_neg hm]
          exact (ih rest hrl).1
        · rw [findallScan_cons_false, if_neg (by simp [hourf]), splitScan_cons_some,
            if_neg hm]
          exact (ih rest hrl).2.1 sp (c :: acc) hsp
        · rw [findallScan_cons_true, if_neg hm, splitScan_cons_some, if_neg hm]
          exact (ih rest hrl).2.2 (c :: acc)

/-- **C10** (amended): for every participant id of the shape the
extractor actually produces (lowercase `vr`, optional `x`, one or more
digits — `wellFormedPid`) and every text, the two turn-segmentation
implementations are equivalent: per speaker, the segments of the
per-speaker `findall` used by `analyze_transcript` and
`count_words_per_speaker`, stripped of surrounding whitespace, are
exactly the turn texts that `split_turns` of `nonverbal_extract.py`
assigns to that speaker, in document order.  Without the well-formedness
hypothesis the equivalence fails (`C10_counterexample`). -/
theorem C10_segment_turn_equiv (pid text : List Char) (isCg : Bool)
    (hwf : wellFormedPid pid = true) :
    (findall_segments pid isCg text).map pyStrip =
      ((split_turns text pid).filter
        (fun t => t.speaker == spkName isCg)).map Turn.text :=
  (C10go pid isCg hwf text.length text (Nat.le_refl _)).1

/-- Witness: the amended C10 theorem applied to the participant id
`vr1`, a concrete three-turn text and the caregiver side. -/
theorem C10_segment_turn_equiv_witness :
    wellFormedPid "vr1".toList = true ∧
    (findall_segments "vr1".toList true
        "vr1_c: hi there vr1_p: ok vr1_c: bye".toList).map pyStrip =
      ((split_turns "vr1_c: hi there vr1_p: ok vr1_c: bye".toList "vr1".toList).filter
        (fun t => t.speaker == spkName true)).map Turn.text :=
  ⟨by decide, C10_segment_turn_equiv "vr1".toList
    "vr1_c: hi there vr1_p: ok vr1_c: bye".toList true (by decide)⟩

end Transcript
